import Mathlib

/-!
Verification of the rusty-raytracer core against its specification.

The Rust sources (tuple.rs, utils.rs, intersection.rs, matrix.rs, transform.rs,
ray.rs, sphere.rs, material.rs, light.rs, color.rs) are shallowly embedded
below.  The f32 scalars of the source are modelled by exact rationals, so every
algebraic step of the code is mirrored exactly; the fixed tolerance literal
1e-4 becomes the rational 1/10000, and f32::sqrt is modelled by Rat.sqrt
(exact on the perfect squares arising in all verified cases).  Recursion that
the source expresses through loops or through decreasing structure sizes is
embedded with explicit structural fuel so that every definition reduces in the
kernel.
-/

set_option maxRecDepth 20000
set_option linter.unnecessarySeqFocus false
set_option linter.unreachableTactic false
set_option linter.unusedTactic false
set_option linter.unusedVariables false

namespace RT

/-- Scalar type of the embedding (the f32 of the source, modelled exactly). -/
abbrev F : Type := ℚ

/-- Tolerance constant of utils.rs (the f32 literal 1e-4). -/
def eps : F := 1 / 10000

/-- Embedding of utils::is_equal: true iff the absolute difference is at most
1e-4.  The rational comparison agrees with the source's f32 comparison on every
input whose values, differences and tolerance comparison are exact in f32; all
concrete inputs used below are small dyadic multiples (k * 2^-14) or values
whose differences stay clear of the rounding boundary of the f32 literal 1e-4,
so each concrete trace is bit-faithful to the program. -/
def is_equal (v1 v2 : F) : Bool :=
  decide (|v1 - v2| ≤ eps)

/-- Embedding of the Tuple struct of tuple.rs: four scalar components. -/
structure Tuple where
  x : F
  y : F
  z : F
  w : F
deriving DecidableEq, Repr

/-- Embedding of Tuple::point: w = 1. -/
def Tuple.point (x y z : F) : Tuple := ⟨x, y, z, 1⟩

/-- Embedding of Tuple::vector: w = 0. -/
def Tuple.vector (x y z : F) : Tuple := ⟨x, y, z, 0⟩

/-- Modelled from the spec: Tuple::new, the plain four-component constructor
used by matrix.rs (its body is not in the tuple.rs snapshot; the spec data
model fixes it as the record constructor). -/
def Tuple.new (x y z w : F) : Tuple := ⟨x, y, z, w⟩

/-- Embedding of Tuple::dot: four-component dot product, w included. -/
def Tuple.dot (a b : Tuple) : F :=
  a.x * b.x + a.y * b.y + a.z * b.z + a.w * b.w

/-- Embedding of Tuple::magnitude: sqrt of the sum of squares of x, y, z
(w excluded); f32::sqrt is modelled by Rat.sqrt. -/
def Tuple.magnitude (t : Tuple) : F :=
  Rat.sqrt (t.x ^ 2 + t.y ^ 2 + t.z ^ 2)

/-- Embedding of Add for Tuple: component-wise, w included. -/
def Tuple.add (a b : Tuple) : Tuple :=
  ⟨a.x + b.x, a.y + b.y, a.z + b.z, a.w + b.w⟩

/-- Embedding of Sub for Tuple: component-wise, w included. -/
def Tuple.sub (a b : Tuple) : Tuple :=
  ⟨a.x - b.x, a.y - b.y, a.z - b.z, a.w - b.w⟩

/-- Embedding of Neg for Tuple: negates x, y, z and keeps w (the source writes
w: self.w). -/
def Tuple.neg (t : Tuple) : Tuple :=
  ⟨-t.x, -t.y, -t.z, t.w⟩

/-- Embedding of Mul of a Tuple by an f32 scalar: scales x, y, z, keeps w. -/
def Tuple.smul (t : Tuple) (k : F) : Tuple :=
  ⟨t.x * k, t.y * k, t.z * k, t.w⟩

/-- Embedding of Div of a Tuple by an f32 scalar: divides x, y, z, keeps w. -/
def Tuple.divF (t : Tuple) (k : F) : Tuple :=
  ⟨t.x / k, t.y / k, t.z / k, t.w⟩

/-- Embedding of the Div impls of a Tuple by the integer types
(i8/i16/i32/i64/u8/u16/u32/u64): the divisor is cast to f32 and the body is
the scalar division; the cast is modelled by the rational image of the integer. -/
def Tuple.divInt (t : Tuple) (k : ℤ) : Tuple :=
  ⟨t.x / (k : F), t.y / (k : F), t.z / (k : F), t.w⟩

/-- Embedding of Tuple::normalize: self divided by its magnitude. -/
def Tuple.normalize (t : Tuple) : Tuple :=
  t.divF t.magnitude

/-- Modelled from the spec: Tuple::reflect (used by material.rs but missing from
the tuple.rs snapshot), reflect(normal) = v − 2·(v·n)·n. -/
def Tuple.reflect (v n : Tuple) : Tuple :=
  v.sub (n.smul (2 * v.dot n))

/-- Embedding of the derived PartialEq on Tuple: the struct derives PartialEq,
so two tuples compare by exact component-wise equality, with no tolerance. -/
def Tuple.eqRust (a b : Tuple) : Bool :=
  decide (a.x = b.x) && decide (a.y = b.y) && decide (a.z = b.z) && decide (a.w = b.w)

/-- Point convention of the data model: w = 1. -/
def Tuple.isPoint (t : Tuple) : Prop := t.w = 1

/-- Vector convention of the data model: w = 0. -/
def Tuple.isVector (t : Tuple) : Prop := t.w = 0

/-- Embedding of the Intersection struct of intersection.rs: a reference to the
hit object together with the ray parameter t (field name point in the source). -/
structure Intersection (T : Type) where
  object : T
  point : F
deriving DecidableEq, Repr

/-- Embedding of Ord::cmp for Intersection: Equal when the two parameters are
within the 1e-4 tolerance, otherwise ordered by the parameter value. -/
def Intersection.cmp {T : Type} (a b : Intersection T) : Ordering :=
  if is_equal a.point b.point then .eq
  else if a.point < b.point then .lt
  else .gt

/-- Embedding of the sift-up of Rust std BinaryHeap on a heap of
Reverse-wrapped intersections: while the parent of the hole compares Greater
in the Reverse order (that is, the inner comparison of parent against child is
Greater), swap child and parent and continue from the parent position.  The
source loop terminates because the position strictly decreases; the embedding
makes that structural with a fuel argument that the wrapper sets to pos + 1. -/
def siftUpFuel {T : Type} : ℕ → List (Intersection T) → ℕ → List (Intersection T)
  | 0, l, _ => l
  | _ + 1, l, 0 => l
  | fuel + 1, l, p + 1 =>
    match l[p / 2]?, l[p + 1]? with
    | some a, some b =>
      if a.cmp b = .gt then
        siftUpFuel fuel ((l.set (p / 2) b).set (p + 1) a) (p / 2)
      else l
    | _, _ => l

/-- Sift-up entry point at a given position. -/
def siftUp {T : Type} (l : List (Intersection T)) (p : ℕ) : List (Intersection T) :=
  siftUpFuel (p + 1) l p

/-- Embedding of BinaryHeap::push: append the element at the end of the data
array, then sift up from the last position. -/
def heapPush {T : Type} (l : List (Intersection T)) (i : Intersection T) :
    List (Intersection T) :=
  siftUp (l ++ [i]) l.length

/-- Embedding of the Intersections struct: the two Reverse binary heaps are
modelled by their underlying arrays, the insertion-order list is kept as is. -/
structure Intersections (T : Type) where
  pos_intersections : List (Intersection T)
  neg_intersections : List (Intersection T)
  merged_intersections : List (Intersection T)
deriving DecidableEq, Repr

/-- Embedding of Intersections::new_empty. -/
def Intersections.new_empty (T : Type) : Intersections T := ⟨[], [], []⟩

/-- Embedding of Intersections::with_capacity (capacity only reserves space). -/
def Intersections.with_capacity (T : Type) (_capacity : ℕ) : Intersections T :=
  ⟨[], [], []⟩

/-- Embedding of Intersections::add_point: the intersection is appended to the
merged list and pushed onto the positive heap when its parameter is strictly
greater than 0, onto the negative heap otherwise. -/
def Intersections.add_point {T : Type} (xs : Intersections T) (i : Intersection T) :
    Intersections T :=
  { pos_intersections :=
      if i.point > 0 then heapPush xs.pos_intersections i else xs.pos_intersections
    neg_intersections :=
      if i.point > 0 then xs.neg_intersections else heapPush xs.neg_intersections i
    merged_intersections := xs.merged_intersections ++ [i] }

/-- Embedding of Intersections::new: start from empty heaps and push every
element of the vector in order (the source loop is this fold of add_point). -/
def Intersections.new {T : Type} (l : List (Intersection T)) : Intersections T :=
  l.foldl Intersections.add_point (Intersections.new_empty T)

/-- Embedding of Intersections::hit: peek of the positive heap, that is, the
root of the positive heap array, none when that heap is empty. -/
def Intersections.hit {T : Type} (xs : Intersections T) : Option (Intersection T) :=
  xs.pos_intersections[0]?

/-- Embedding of Intersections::len: length of the merged list. -/
def Intersections.len {T : Type} (xs : Intersections T) : ℕ :=
  xs.merged_intersections.length

/-- Sifting up never changes the length of the heap array. -/
theorem siftUpFuel_length {T : Type} :
    ∀ (fuel : ℕ) (l : List (Intersection T)) (p : ℕ),
      (siftUpFuel fuel l p).length = l.length := by
  intro fuel
  induction fuel with
  | zero => intro l p; rfl
  | succ n ih =>
    intro l p
    match p with
    | 0 => rfl
    | q + 1 =>
      simp only [siftUpFuel]
      cases h1 : l[q / 2]? <;> cases h2 : l[q + 1]? <;> simp only
      split
      · rw [ih]
        simp
      · rfl

/-- Sifting up only permutes entries: every member of the result was a member
of the input array. -/
theorem siftUpFuel_mem {T : Type} :
    ∀ (fuel : ℕ) (l : List (Intersection T)) (p : ℕ) (x : Intersection T),
      x ∈ siftUpFuel fuel l p → x ∈ l := by
  intro fuel
  induction fuel with
  | zero => intro l p x hx; exact hx
  | succ n ih =>
    intro l p x hx
    match p with
    | 0 => exact hx
    | q + 1 =>
      simp only [siftUpFuel] at hx
      cases h1 : l[q / 2]? with
      | none => rw [h1] at hx; exact hx
      | some a =>
        cases h2 : l[q + 1]? with
        | none => rw [h1, h2] at hx; exact hx
        | some b =>
          rw [h1, h2] at hx
          simp only at hx
          split at hx
          · have hx2 := ih _ _ _ hx
            rcases List.mem_or_eq_of_mem_set hx2 with hx3 | hx3
            · rcases List.mem_or_eq_of_mem_set hx3 with hx4 | hx4
              · exact hx4
              · subst hx4
                exact List.getElem?_mem h2
            · subst hx3
              exact List.getElem?_mem h1
          · exact hx

/-- Pushing onto the heap grows the array by exactly one entry. -/
theorem heapPush_length {T : Type} (l : List (Intersection T)) (i : Intersection T) :
    (heapPush l i).length = l.length + 1 := by
  simp [heapPush, siftUp, siftUpFuel_length]

/-- Every member of the heap after a push was a member before, or is the new entry. -/
theorem heapPush_mem {T : Type} (l : List (Intersection T)) (i x : Intersection T)
    (hx : x ∈ heapPush l i) : x ∈ l ∨ x = i := by
  have h := siftUpFuel_mem _ _ _ _ hx
  rcases List.mem_append.mp h with h1 | h1
  · exact Or.inl h1
  · exact Or.inr (List.mem_singleton.mp h1)

/-- Invariant of the Intersections collection used to settle the hit claims:
the positive heap holds recorded intersections with strictly positive
parameter, and it is empty exactly when no recorded intersection has a
strictly positive parameter. -/
def HeapInv {T : Type} (xs : Intersections T) : Prop :=
  (∀ x ∈ xs.pos_intersections, x ∈ xs.merged_intersections ∧ 0 < x.point) ∧
  (xs.pos_intersections = [] ↔ ∀ i ∈ xs.merged_intersections, i.point ≤ 0)

/-- The invariant holds for the empty collection. -/
theorem heapInv_empty (T : Type) : HeapInv (Intersections.new_empty T) := by
  constructor
  · intro x hx
    simp [Intersections.new_empty] at hx
  · simp [Intersections.new_empty]

/-- The invariant is preserved by add_point. -/
theorem heapInv_add_point {T : Type} (xs : Intersections T) (i : Intersection T)
    (h : HeapInv xs) : HeapInv (xs.add_point i) := by
  obtain ⟨hmem, hiff⟩ := h
  by_cases hp : i.point > 0
  · constructor
    · intro x hx
      simp only [Intersections.add_point, if_pos hp] at hx ⊢
      rcases heapPush_mem _ _ _ hx with h1 | h1
      · obtain ⟨h2, h3⟩ := hmem x h1
        exact ⟨List.mem_append_left _ h2, h3⟩
      · subst h1
        exact ⟨List.mem_append_right _ (List.mem_singleton.mpr rfl), hp⟩
    · simp only [Intersections.add_point, if_pos hp]
      constructor
      · intro hempty
        exact absurd hempty (by
          intro hc
          have := heapPush_length xs.pos_intersections i
          rw [hc] at this
          simp at this)
      · intro hall
        exact absurd (hall i (List.mem_append_right _ (List.mem_singleton.mpr rfl)))
          (by simpa using hp)
  · constructor
    · intro x hx
      simp only [Intersections.add_point, if_neg hp] at hx ⊢
      obtain ⟨h2, h3⟩ := hmem x hx
      exact ⟨List.mem_append_left _ h2, h3⟩
    · simp only [Intersections.add_point, if_neg hp]
      rw [hiff]
      constructor
      · intro hall j hj
        rcases List.mem_append.mp hj with h1 | h1
        · exact hall j h1
        · rw [List.mem_singleton.mp h1]
          simpa using hp
      · intro hall j hj
        exact hall j (List.mem_append_left _ hj)

/-- The invariant is preserved by any sequence of add_point calls. -/
theorem heapInv_foldl {T : Type} (l : List (Intersection T)) :
    ∀ (xs : Intersections T), HeapInv xs → HeapInv (l.foldl Intersections.add_point xs) := by
  induction l with
  | nil => intro xs h; exact h
  | cons a l ih =>
    intro xs h
    exact ih _ (heapInv_add_point xs a h)

/-- The merged list after a sequence of add_point calls is the old merged list
followed by the added intersections in order. -/
theorem merged_foldl {T : Type} (l : List (Intersection T)) :
    ∀ (xs : Intersections T),
      (l.foldl Intersections.add_point xs).merged_intersections
        = xs.merged_intersections ++ l := by
  induction l with
  | nil => intro xs; simp
  | cons a l ih =>
    intro xs
    rw [List.foldl_cons, ih]
    simp [Intersections.add_point]

/-- A collection built by Intersections::new satisfies the invariant and
records exactly the input list. -/
theorem heapInv_new {T : Type} (l : List (Intersection T)) :
    HeapInv (Intersections.new l) ∧ (Intersections.new l).merged_intersections = l := by
  constructor
  · exact heapInv_foldl l _ (heapInv_empty T)
  · rw [Intersections.new, merged_foldl]
    simp [Intersections.new_empty]

/-- C1 (amended): for every collection built through new (equivalently through
a sequence of add_point calls starting from the empty collection), hit()
returns none exactly when no recorded intersection has a strictly positive
parameter t, and whenever it returns an intersection, that intersection is
recorded and has a strictly positive t.  Because an intersection with t = 0 is
classified into the negative heap, t = 0 never qualifies; and because the
tolerance-based comparator used by the heap is not a lawful total order, the
returned intersection need not be the one with minimal t. -/
theorem c1_hit_amended {T : Type} (l : List (Intersection T)) :
    ((Intersections.new l).hit = none ↔ ∀ i ∈ l, i.point ≤ 0) ∧
    (∀ h, (Intersections.new l).hit = some h → h ∈ l ∧ 0 < h.point) := by
  obtain ⟨⟨hmem, hiff⟩, hmerged⟩ := heapInv_new l
  rw [hmerged] at hmem hiff
  constructor
  · rw [← hiff]
    unfold Intersections.hit
    cases hp : (Intersections.new l).pos_intersections <;> simp [hp]
  · intro h hh
    unfold Intersections.hit at hh
    have : h ∈ (Intersections.new l).pos_intersections := List.getElem?_mem hh
    exact hmem h this

/-- C1 witness input evaluated: a single positive intersection is the hit. -/
theorem hit_single_pos :
    (Intersections.new [(⟨(), 5⟩ : Intersection Unit)]).hit = some ⟨(), 5⟩ := by
  norm_num [Intersections.new, List.foldl, Intersections.add_point, Intersections.new_empty,
    Intersections.hit, heapPush, siftUp, siftUpFuel]

/-- C1: concrete witness discharging the hypotheses of the amended theorem at a
one-element collection with t = 5. -/
theorem c1_witness :
    (⟨(), (5 : F)⟩ : Intersection Unit) ∈ [(⟨(), (5 : F)⟩ : Intersection Unit)] ∧
      (0 : F) < 5 :=
  (c1_hit_amended [(⟨(), 5⟩ : Intersection Unit)]).2 ⟨(), 5⟩ hit_single_pos

/-- Evaluation step: pushing t = 3*2^-14 on the empty collection.  All drift
parameters are multiples of 2^-14 ~ 6.104e-5: each is exact in f32, every
pairwise difference is computed exactly by f32 subtraction, and no difference
falls at the rounding boundary of the f32 tolerance literal 1e-4 (one step,
2^-14, is below it; two steps, 2^-13 ~ 1.221e-4, is above it), so the f32
program performs exactly the comparisons evaluated here. -/
theorem c1_step1 :
    Intersections.add_point (Intersections.new_empty Unit) ⟨(), 3 / 16384⟩
      = ⟨[⟨(), 3 / 16384⟩], [], [⟨(), 3 / 16384⟩]⟩ := by
  norm_num [Intersections.add_point, Intersections.new_empty, heapPush, siftUp, siftUpFuel]

/-- Evaluation step: t = 2*2^-14 is within tolerance of the root 3*2^-14 (one
step of 2^-14 ~ 6.104e-5 <= 1e-4), so the sift does not swap and the root
stays 3*2^-14. -/
theorem c1_step2 :
    Intersections.add_point (⟨[⟨(), 3 / 16384⟩], [], [⟨(), 3 / 16384⟩]⟩ : Intersections Unit)
        ⟨(), 2 / 16384⟩
      = ⟨[⟨(), 3 / 16384⟩, ⟨(), 2 / 16384⟩], [], [⟨(), 3 / 16384⟩, ⟨(), 2 / 16384⟩]⟩ := by
  norm_num [Intersections.add_point, heapPush, siftUp, siftUpFuel, Intersection.cmp,
    is_equal, eps, abs_le] <;> decide

/-- Evaluation step: a second t = 3*2^-14 compares equal to the root and stays
put. -/
theorem c1_step3 :
    Intersections.add_point
        (⟨[⟨(), 3 / 16384⟩, ⟨(), 2 / 16384⟩], [],
          [⟨(), 3 / 16384⟩, ⟨(), 2 / 16384⟩]⟩ : Intersections Unit) ⟨(), 3 / 16384⟩
      = ⟨[⟨(), 3 / 16384⟩, ⟨(), 2 / 16384⟩, ⟨(), 3 / 16384⟩], [],
          [⟨(), 3 / 16384⟩, ⟨(), 2 / 16384⟩, ⟨(), 3 / 16384⟩]⟩ := by
  norm_num [Intersections.add_point, heapPush, siftUp, siftUpFuel, Intersection.cmp,
    is_equal, eps, abs_le] <;> decide

/-- Evaluation step: t = 2^-14 lands below parent t = 2*2^-14, within tolerance
of it, so it is not sifted past the root; the root stays 3*2^-14 although
2^-14 is now the smallest entry and differs from the root by 2^-13 > 1e-4. -/
theorem c1_step4 :
    Intersections.add_point
        (⟨[⟨(), 3 / 16384⟩, ⟨(), 2 / 16384⟩, ⟨(), 3 / 16384⟩], [],
          [⟨(), 3 / 16384⟩, ⟨(), 2 / 16384⟩, ⟨(), 3 / 16384⟩]⟩ : Intersections Unit)
        ⟨(), 1 / 16384⟩
      = ⟨[⟨(), 3 / 16384⟩, ⟨(), 2 / 16384⟩, ⟨(), 3 / 16384⟩, ⟨(), 1 / 16384⟩], [],
          [⟨(), 3 / 16384⟩, ⟨(), 2 / 16384⟩, ⟨(), 3 / 16384⟩, ⟨(), 1 / 16384⟩]⟩ := by
  norm_num [Intersections.add_point, heapPush, siftUp, siftUpFuel, Intersection.cmp,
    is_equal, eps, abs_le] <;> decide

/-- Evaluated hit of the single-element collection at t = 0. -/
theorem hit_single_zero :
    (Intersections.new [(⟨(), 0⟩ : Intersection Unit)]).hit = none := by
  norm_num [Intersections.new, List.foldl, Intersections.add_point, Intersections.new_empty,
    Intersections.hit, heapPush, siftUp, siftUpFuel]

/-- Evaluated hit of the four-element drift collection. -/
theorem hit_drift :
    (Intersections.new [(⟨(), 3 / 16384⟩ : Intersection Unit), ⟨(), 2 / 16384⟩,
        ⟨(), 3 / 16384⟩, ⟨(), 1 / 16384⟩]).hit = some ⟨(), 3 / 16384⟩ := by
  have hchain : Intersections.new [(⟨(), 3 / 16384⟩ : Intersection Unit), ⟨(), 2 / 16384⟩,
        ⟨(), 3 / 16384⟩, ⟨(), 1 / 16384⟩]
      = Intersections.add_point (Intersections.add_point (Intersections.add_point
          (Intersections.add_point (Intersections.new_empty Unit) ⟨(), 3 / 16384⟩)
          ⟨(), 2 / 16384⟩) ⟨(), 3 / 16384⟩) ⟨(), 1 / 16384⟩ := rfl
  rw [hchain, c1_step1, c1_step2, c1_step3, c1_step4]
  rfl

/-- C1 counterexample: the claim fails twice on the code.  First, with one
recorded intersection at exactly t = 0, hit() returns none although an
intersection with t ≥ 0 is recorded (t = 0 goes to the negative heap because
the classification tests t > 0).  Second, with the four recorded parameters
3*2^-14, 2*2^-14, 3*2^-14, 2^-14 (all positive, all exact in f32, all pairwise
differences exact and away from the rounding boundary of the tolerance), hit()
returns the intersection with t = 3*2^-14 although t = 2^-14 is recorded,
smaller, and not even within tolerance of it: each pushed element compares
Equal to its heap parent one step of 2^-14 away, so the smallest element never
reaches the root, yet root minus smallest is 2^-13 > 1e-4. -/
theorem c1_counterexample :
    ((Intersections.new [(⟨(), 0⟩ : Intersection Unit)]).hit = none ∧
      (⟨(), 0⟩ : Intersection Unit)
        ∈ (Intersections.new [(⟨(), 0⟩ : Intersection Unit)]).merged_intersections ∧
      (0 : F) ≥ 0) ∧
    ((Intersections.new [(⟨(), 3 / 16384⟩ : Intersection Unit), ⟨(), 2 / 16384⟩,
        ⟨(), 3 / 16384⟩, ⟨(), 1 / 16384⟩]).hit = some ⟨(), 3 / 16384⟩ ∧
      (⟨(), 1 / 16384⟩ : Intersection Unit)
        ∈ (Intersections.new [(⟨(), 3 / 16384⟩ : Intersection Unit), ⟨(), 2 / 16384⟩,
            ⟨(), 3 / 16384⟩, ⟨(), 1 / 16384⟩]).merged_intersections ∧
      (0 : F) < 1 / 16384 ∧ (1 / 16384 : F) < 3 / 16384 ∧
      is_equal (3 / 16384) (1 / 16384) = false) := by
  refine ⟨⟨hit_single_zero, ?_, le_refl 0⟩,
    hit_drift, ?_, by norm_num, by norm_num, by norm_num [is_equal, eps, abs_le]⟩
  · rw [(heapInv_new _).2]
    simp
  · rw [(heapInv_new _).2]
    simp

/-- C2 counterexample: the tolerance-based comparison is not transitive, hence
not a total order.  With parameters 2e-4, 1e-4 and 0, the first two compare
Equal and the last two compare Equal, yet the outer pair compares Greater, so
both the induced equivalence and the induced less-or-equal relation fail
transitivity. -/
theorem c2_counterexample :
    Intersection.cmp (⟨(), 2 / 10000⟩ : Intersection Unit) ⟨(), 1 / 10000⟩ = .eq ∧
    Intersection.cmp (⟨(), 1 / 10000⟩ : Intersection Unit) ⟨(), 0⟩ = .eq ∧
    Intersection.cmp (⟨(), 2 / 10000⟩ : Intersection Unit) ⟨(), 0⟩ = .gt := by
  refine ⟨?_, ?_, ?_⟩ <;>
    norm_num [Intersection.cmp, is_equal, eps, abs_le]

/-- C2 (amended): the comparison on Intersection is reflexive, total, and
antisymmetric (Equal is symmetric and Less of one direction is Greater of the
other), and its strict Less part is transitive; but tolerance equality is not
transitive, so the comparison is not a lawful total order and the Ord contract
assumed by the heap/sort use is violated. -/
theorem c2_cmp_amended {T : Type} (a b c : Intersection T) :
    a.cmp a = .eq ∧
    (a.cmp b = .lt ∨ a.cmp b = .eq ∨ a.cmp b = .gt) ∧
    (a.cmp b = .eq ↔ b.cmp a = .eq) ∧
    (a.cmp b = .lt ↔ b.cmp a = .gt) ∧
    (a.cmp b = .lt → b.cmp c = .lt → a.cmp c = .lt) := by
  refine ⟨?_, ?_, ?_, ?_, ?_⟩
  · norm_num [Intersection.cmp, is_equal, eps]
  · simp only [Intersection.cmp]
    split_ifs <;> simp
  · have habs : |b.point - a.point| = |a.point - b.point| := abs_sub_comm _ _
    simp only [Intersection.cmp, is_equal, decide_eq_true_eq, habs]
    split_ifs <;> simp
  · have habs : |b.point - a.point| = |a.point - b.point| := abs_sub_comm _ _
    simp only [Intersection.cmp, is_equal, decide_eq_true_eq, habs]
    by_cases h1 : |a.point - b.point| ≤ eps
    · simp [h1]
    · rw [if_neg h1, if_neg h1]
      by_cases h2 : a.point < b.point
      · rw [if_pos h2, if_neg (by linarith : ¬ b.point < a.point)]
        simp
      · have hne : a.point ≠ b.point := by
          intro he
          rw [he] at h1
          norm_num [eps] at h1
        have h3 : b.point < a.point := lt_of_le_of_ne (le_of_not_lt h2) (Ne.symm hne)
        rw [if_neg h2, if_pos h3]
        simp
  · intro h1 h2
    simp only [Intersection.cmp, is_equal, decide_eq_true_eq] at h1 h2 ⊢
    by_cases hab : |a.point - b.point| ≤ eps
    · rw [if_pos hab] at h1
      exact absurd h1 (by decide)
    · rw [if_neg hab] at h1
      by_cases hab2 : a.point < b.point
      · by_cases hbc : |b.point - c.point| ≤ eps
        · rw [if_pos hbc] at h2
          exact absurd h2 (by decide)
        · rw [if_neg hbc] at h2
          by_cases hbc2 : b.point < c.point
          · have h3 : eps < b.point - a.point := by
              have h4 := lt_of_not_le hab
              rwa [abs_sub_comm, abs_of_pos (by linarith)] at h4
            have h5 : eps < c.point - b.point := by
              have h4 := lt_of_not_le hbc
              rwa [abs_sub_comm, abs_of_pos (by linarith)] at h4
            have heps : (0 : F) < eps := by norm_num [eps]
            rw [if_neg, if_pos (by linarith)]
            rw [abs_sub_comm, abs_of_pos (by linarith)]
            intro hcon
            linarith
          · rw [if_neg hbc2] at h2
            exact absurd h2 (by decide)
      · rw [if_neg hab2] at h1
        exact absurd h1 (by decide)

/-- C2: concrete witness discharging the hypotheses of the amended theorem:
strict-Less transitivity applied at parameters 0, 1 and 2. -/
theorem c2_witness :
    Intersection.cmp (⟨(), (0 : F)⟩ : Intersection Unit) ⟨(), 2⟩ = .lt :=
  (c2_cmp_amended (⟨(), 0⟩ : Intersection Unit) ⟨(), 1⟩ ⟨(), 2⟩).2.2.2.2
    (by norm_num [Intersection.cmp, is_equal, eps, abs_le])
    (by norm_num [Intersection.cmp, is_equal, eps, abs_le])

/-- C3: the derived PartialEq on Tuple compares components exactly, with no
tolerance: two tuples whose components each differ by at most 1e-4 (here the x
components differ by 1/20000) are unequal under the code's comparison even
though the spec's tolerance policy counts them equal. -/
theorem c3_tuple_eq_exact_not_tolerant :
    Tuple.eqRust (Tuple.point 0 0 0) (Tuple.point (1 / 20000) 0 0) = false ∧
    is_equal (Tuple.point 0 0 0).x (Tuple.point (1 / 20000) 0 0).x = true ∧
    is_equal (Tuple.point 0 0 0).y (Tuple.point (1 / 20000) 0 0).y = true ∧
    is_equal (Tuple.point 0 0 0).z (Tuple.point (1 / 20000) 0 0).z = true ∧
    is_equal (Tuple.point 0 0 0).w (Tuple.point (1 / 20000) 0 0).w = true := by
  norm_num [Tuple.eqRust, Tuple.point, is_equal, eps, abs_le]

/-- C10: negation, scalar multiplication, scalar division and the integer
division variants of Tuple change only x, y and z and keep w, hence they map
points to points and vectors to vectors. -/
theorem c10_scalar_ops_preserve_w (t : Tuple) (k : F) (n : ℤ) :
    (t.neg).w = t.w ∧ (t.smul k).w = t.w ∧ (t.divF k).w = t.w ∧ (t.divInt n).w = t.w ∧
    ((t.neg).isPoint ↔ t.isPoint) ∧ ((t.smul k).isPoint ↔ t.isPoint) ∧
    ((t.divF k).isPoint ↔ t.isPoint) ∧ ((t.divInt n).isPoint ↔ t.isPoint) ∧
    ((t.neg).isVector ↔ t.isVector) ∧ ((t.smul k).isVector ↔ t.isVector) ∧
    ((t.divF k).isVector ↔ t.isVector) ∧ ((t.divInt n).isVector ↔ t.isVector) := by
  simp [Tuple.neg, Tuple.smul, Tuple.divF, Tuple.divInt, Tuple.isPoint, Tuple.isVector]

/-- Embedding of the Matrix struct of matrix.rs: dimensions plus a dense
row-major value vector. -/
structure Matrix where
  nrows : ℕ
  ncols : ℕ
  vals : List F
deriving DecidableEq, Repr

/-- Well-formedness carried by every matrix the Rust constructors build: the
value vector has exactly nrows * ncols entries. -/
def Matrix.wf (m : Matrix) : Prop := m.vals.length = m.nrows * m.ncols

/-- Embedding of Matrix::new: a zero-filled nrows x ncols matrix. -/
def Matrix.new (nrows ncols : ℕ) : Matrix :=
  ⟨nrows, ncols, List.replicate (nrows * ncols) 0⟩

/-- Embedding of Matrix::get_index: bounds-checked row-major index. -/
def Matrix.get_index (m : Matrix) (row col : ℕ) : Option ℕ :=
  if row ≥ m.nrows ∨ col ≥ m.ncols then none else some (row * m.ncols + col)

/-- Embedding of Matrix::get: bounds-checked read. -/
def Matrix.get (m : Matrix) (row col : ℕ) : Option F :=
  (m.get_index row col).map (fun idx => m.vals.getD idx 0)

/-- Embedding of Matrix::set: bounds-checked write; an out-of-range write
leaves the matrix unchanged (the source returns None without writing). -/
def Matrix.set (m : Matrix) (row col : ℕ) (v : F) : Matrix :=
  match m.get_index row col with
  | none => m
  | some idx => { m with vals := m.vals.set idx v }

/-- Embedding of the Index impl for Matrix: unchecked row-major read (the
source indexes the value vector directly; the embedding totalizes the read
with default 0, which is never reached on the in-bounds uses of the code). -/
def Matrix.entry (m : Matrix) (row col : ℕ) : F :=
  m.vals.getD (row * m.ncols + col) 0

/-- Embedding of Matrix::shape. -/
def Matrix.shape (m : Matrix) : ℕ × ℕ := (m.nrows, m.ncols)

/-- Embedding of Matrix::from_array: fails unless the value slice has exactly
nrows * ncols entries. -/
def Matrix.from_array (nrows ncols : ℕ) (vals : List F) : Option Matrix :=
  if vals.length ≠ nrows * ncols then none else some ⟨nrows, ncols, vals⟩

/-- Embedding of Matrix::identity: start from the zero matrix and set the
diagonal entries to 1. -/
def Matrix.identity (size : ℕ) : Matrix :=
  (List.range size).foldl (fun m i => m.set i i 1) (Matrix.new size size)

/-- Inner loop of Matrix::submatrix: copy row i of the source into row rowid
of the target, skipping source column col and advancing the colid counter; the
state is the target matrix paired with colid. -/
def subInner (m : Matrix) (col i rowid : ℕ) (st : Matrix × ℕ) (n : ℕ) : Matrix × ℕ :=
  (List.range n).foldl
    (fun (acc2 : Matrix × ℕ) j =>
      if j = col then acc2
      else (acc2.1.set rowid acc2.2 (m.entry i j), acc2.2 + 1)) st

/-- Embedding of Matrix::submatrix: copy every entry whose row differs from
row and whose column differs from col into a fresh (nrows-1) x (ncols-1)
matrix, compacting indices with the running rowid/colid counters of the
source loops. -/
def Matrix.submatrix (m : Matrix) (row col : ℕ) : Matrix :=
  ((List.range m.nrows).foldl
    (fun (acc : Matrix × ℕ) i =>
      if i = row then acc
      else ((subInner m col i acc.2 (acc.1, 0) m.ncols).1, acc.2 + 1))
    (Matrix.new (m.nrows - 1) (m.ncols - 1), 0)).1

/-- Embedding of Matrix::det, structurally recursive on a fuel that the
wrapper sets to the row count: the 2 x 2 base case reads the four stored
values directly, and the general case folds the signed cofactor expansion
along row 0 (the source recursion det -> cofactor -> minor -> det terminates
because the submatrix loses one row; the fuel mirrors exactly that row
count). -/
def Matrix.detAux : ℕ → Matrix → F
  | 0, _ => 0
  | fuel + 1, m =>
    if m.nrows = 2 ∧ m.ncols = 2 then
      m.vals.getD 0 0 * m.vals.getD 3 0 - m.vals.getD 1 0 * m.vals.getD 2 0
    else
      (List.range m.ncols).foldl
        (fun det i =>
          det + m.entry 0 i *
            (if (0 + i) % 2 ≠ 0 then -(Matrix.detAux fuel (m.submatrix 0 i))
             else Matrix.detAux fuel (m.submatrix 0 i)))
        0

/-- Embedding of Matrix::det. -/
def Matrix.det (m : Matrix) : F := Matrix.detAux m.nrows m

/-- Embedding of Matrix::minor: determinant of the submatrix. -/
def Matrix.minor (m : Matrix) (row col : ℕ) : F :=
  (m.submatrix row col).det

/-- Embedding of Matrix::cofactor: the minor, negated when row + col is odd. -/
def Matrix.cofactor (m : Matrix) (row col : ℕ) : F :=
  if (row + col) % 2 ≠ 0 then -(m.minor row col) else m.minor row col

/-- Embedding of Matrix::is_invertible. -/
def Matrix.is_invertible (m : Matrix) : Prop := m.det ≠ 0

/-- Embedding of Matrix::inverse: none when the determinant is 0, otherwise a
fresh matrix filled by the transposed loop inverse[j, i] = cofactor(i, j) / det. -/
def Matrix.inverse (m : Matrix) : Option Matrix :=
  if m.det = 0 then none
  else some
    ((List.range m.nrows).foldl
      (fun inv i =>
        (List.range m.ncols).foldl
          (fun inv j => inv.set j i (m.cofactor i j / m.det))
          inv)
      (Matrix.new m.nrows m.ncols))

/-- Embedding of Matrix::translation: identity with the last column set. -/
def Matrix.translation (x y z : F) : Matrix :=
  (((Matrix.identity 4).set 0 3 x).set 1 3 y).set 2 3 z

/-- Embedding of Matrix::scaling: identity with the diagonal set. -/
def Matrix.scaling (x y z : F) : Matrix :=
  (((Matrix.identity 4).set 0 0 x).set 1 1 y).set 2 2 z

/-- Embedding of Matrix::rotation_x.  The source takes the angle and places
cos/sin values; the embedding is parameterized directly by the cosine and sine
values c and s, since those trigonometric scalars are transcendental. -/
def Matrix.rotation_x (c s : F) : Matrix :=
  (Matrix.from_array 4 4
    [1, 0, 0, 0,
     0, c, -s, 0,
     0, s, c, 0,
     0, 0, 0, 1]).getD (Matrix.new 4 4)

/-- Embedding of Matrix::rotation_y, parameterized by cosine and sine. -/
def Matrix.rotation_y (c s : F) : Matrix :=
  (Matrix.from_array 4 4
    [c, 0, s, 0,
     0, 1, 0, 0,
     -s, 0, c, 0,
     0, 0, 0, 1]).getD (Matrix.new 4 4)

/-- Embedding of Matrix::rotation_z, parameterized by cosine and sine. -/
def Matrix.rotation_z (c s : F) : Matrix :=
  (Matrix.from_array 4 4
    [c, -s, 0, 0,
     s, c, 0, 0,
     0, 0, 1, 0,
     0, 0, 0, 1]).getD (Matrix.new 4 4)

/-- Embedding of Matrix::shearing. -/
def Matrix.shearing (x_y x_z y_x y_z z_x z_y : F) : Matrix :=
  (Matrix.from_array 4 4
    [1, x_y, x_z, 0,
     y_x, 1, y_z, 0,
     z_x, z_y, 1, 0,
     0, 0, 0, 1]).getD (Matrix.new 4 4)

/-- Inner accumulation of the matrix product: the cell value at (i, j), the
running sum of A[i, k] * B[k, j] of the innermost source loop. -/
def Matrix.cellVal (A B : Matrix) (i j : ℕ) : F :=
  (List.range A.ncols).foldl (fun acc k => acc + A.entry i k * B.entry k j) 0

/-- Embedding of Mul for Matrix (both the by-value and by-reference impls have
this same body): none when the inner dimensions disagree, otherwise the fresh
product matrix filled cell by cell by the loop nest. -/
def Matrix.mulOpt (A B : Matrix) : Option Matrix :=
  if A.ncols ≠ B.nrows then none
  else some
    ((List.range A.nrows).foldl
      (fun prod i =>
        (List.range B.ncols).foldl
          (fun prod j => prod.set i j (Matrix.cellVal A B i j))
          prod)
      (Matrix.new A.nrows B.ncols))

/-- Outcome of a Rust function returning Option but containing unwrap calls:
it can return None, return a value, or panic. -/
inductive MulTupleRes where
  | dimMismatch : MulTupleRes
  | panicked : MulTupleRes
  | ok : Tuple → MulTupleRes
deriving DecidableEq, Repr

/-- Embedding of Mul of a Matrix by a Tuple: None when ncols is not 4;
otherwise the tuple is packed as an (nrows x 1) column through from_array and
multiplied; the two unwrap calls of the source panic when from_array or the
product fails (which happens exactly when nrows is not 4). -/
def Matrix.mulTupleR (A : Matrix) (t : Tuple) : MulTupleRes :=
  if A.ncols ≠ 4 then .dimMismatch
  else
    match Matrix.from_array A.nrows 1 [t.x, t.y, t.z, t.w] with
    | none => .panicked
    | some b =>
      match A.mulOpt b with
      | none => .panicked
      | some prod =>
        .ok (Tuple.new (prod.entry 0 0) (prod.entry 1 0) (prod.entry 2 0) (prod.entry 3 0))

/-- Matrix-tuple product as an Option, collapsing the panic and absent cases
for use by callers that unwrap the result. -/
def Matrix.mulTupleOpt (A : Matrix) (t : Tuple) : Option Tuple :=
  match A.mulTupleR t with
  | .ok u => some u
  | _ => none

/-- Shape-and-wellformedness predicate: the matrix is R x C with a dense value
vector of matching length. -/
def Matrix.Sh (R C : ℕ) (m : Matrix) : Prop :=
  m.nrows = R ∧ m.ncols = C ∧ m.wf

/-- A fresh zero matrix is well-formed with the requested shape. -/
theorem sh_new (R C : ℕ) : Matrix.Sh R C (Matrix.new R C) := by
  refine ⟨rfl, rfl, ?_⟩
  simp [Matrix.new, Matrix.wf]

/-- Writes preserve shape and well-formedness. -/
theorem sh_set {R C : ℕ} {m : Matrix} (h : Matrix.Sh R C m) (r c : ℕ) (v : F) :
    Matrix.Sh R C (m.set r c v) := by
  obtain ⟨h1, h2, h3⟩ := h
  unfold Matrix.set
  cases hidx : m.get_index r c with
  | none => exact ⟨h1, h2, h3⟩
  | some idx =>
    refine ⟨h1, h2, ?_⟩
    simpa [Matrix.wf] using h3

/-- Folds of steps that preserve a predicate preserve it globally. -/
theorem foldl_preserve {β : Type} {α : Type} (P : β → Prop) (s : β → α → β)
    (hs : ∀ m x, P m → P (s m x)) :
    ∀ (l : List α) (m : β), P m → P (l.foldl s m) := by
  intro l
  induction l with
  | nil => intro m h; exact h
  | cons a l ih => intro m h; exact ih _ (hs m a h)

/-- Entries of a fresh zero matrix are 0. -/
theorem entry_new (R C p q : ℕ) : (Matrix.new R C).entry p q = 0 := by
  unfold Matrix.entry Matrix.new
  rw [List.getD_eq_getElem?_getD, List.getElem?_replicate]
  split <;> rfl

/-- Row-major indices of in-bounds cells are below the vector length. -/
theorem index_lt {R C r c : ℕ} (hr : r < R) (hc : c < C) : r * C + c < R * C := by
  calc r * C + c < r * C + C := by omega
  _ = (r + 1) * C := by ring
  _ ≤ R * C := Nat.mul_le_mul_right C hr

/-- Row-major indexing is injective on in-bounds columns. -/
theorem index_inj {C r c r' c' : ℕ} (hc : c < C) (hc' : c' < C)
    (h : r * C + c = r' * C + c') : r = r' ∧ c = c' := by
  have h1 : (r * C + c) % C = c := by
    rw [Nat.add_comm, Nat.add_mul_mod_self_right, Nat.mod_eq_of_lt hc]
  have h2 : (r' * C + c') % C = c' := by
    rw [Nat.add_comm, Nat.add_mul_mod_self_right, Nat.mod_eq_of_lt hc']
  have hcc : c = c' := by rw [← h1, ← h2, h]
  subst hcc
  have h3 : r * C = r' * C := by omega
  have hC : 0 < C := Nat.pos_of_ne_zero (by omega)
  exact ⟨Nat.eq_of_mul_eq_mul_right hC h3, rfl⟩

/-- Reading back an in-bounds write returns the written value. -/
theorem entry_set_self {R C : ℕ} {m : Matrix} (h : Matrix.Sh R C m)
    {r c : ℕ} (hr : r < R) (hc : c < C) (v : F) :
    (m.set r c v).entry r c = v := by
  obtain ⟨h1, h2, h3⟩ := h
  unfold Matrix.set Matrix.get_index
  rw [if_neg (by omega)]
  unfold Matrix.entry
  simp only
  rw [h2, List.getD_eq_getElem?_getD,
    List.getElem?_set_self (by rw [h3, Matrix.wf, h1, h2] at *; exact index_lt hr hc)]
  rfl

/-- Reading any other in-bounds cell is unaffected by a write. -/
theorem entry_set_ne {R C : ℕ} {m : Matrix} (h : Matrix.Sh R C m)
    {r c p q : ℕ} (hc : c < C) (hq : q < C) (hne : (r, c) ≠ (p, q)) (v : F) :
    (m.set r c v).entry p q = m.entry p q := by
  obtain ⟨h1, h2, h3⟩ := h
  unfold Matrix.set
  cases hidx : m.get_index r c with
  | none => rfl
  | some idx =>
    unfold Matrix.get_index at hidx
    by_cases hb : r ≥ m.nrows ∨ c ≥ m.ncols
    · rw [if_pos hb] at hidx; cases hidx
    · rw [if_neg hb] at hidx
      have hidx2 : idx = r * m.ncols + c := by cases hidx; rfl
      unfold Matrix.entry
      simp only
      rw [List.getD_eq_getElem?_getD, List.getD_eq_getElem?_getD,
        List.getElem?_set_ne]
      rw [hidx2, h2]
      intro hcontra
      rcases index_inj hc hq hcontra with ⟨he1, he2⟩
      exact hne (by rw [he1, he2])

/-- Characterization of a fold of writes whose written value is a function v
of the written position: positions written get v, other in-bounds positions
keep their old entry.  The maps rho and gamma give the row and column written
at loop index j. -/
theorem foldl_set_entry {R C : ℕ} (rho gamma : ℕ → ℕ) (w : ℕ → F) (v : ℕ → ℕ → F)
    (hv : ∀ j, w j = v (rho j) (gamma j)) :
    ∀ (js : List ℕ) (m : Matrix), Matrix.Sh R C m →
      (∀ j ∈ js, rho j < R ∧ gamma j < C) →
      ∀ p q, q < C →
        ((∃ j ∈ js, rho j = p ∧ gamma j = q) →
          (js.foldl (fun acc j => acc.set (rho j) (gamma j) (w j)) m).entry p q = v p q) ∧
        ((¬ ∃ j ∈ js, rho j = p ∧ gamma j = q) →
          (js.foldl (fun acc j => acc.set (rho j) (gamma j) (w j)) m).entry p q
            = m.entry p q) := by
  intro js
  induction js with
  | nil =>
    intro m hm hb p q hq
    constructor
    · rintro ⟨j, hj, -⟩
      cases hj
    · intro _
      rfl
  | cons a js ih =>
    intro m hm hb p q hq
    have hma : Matrix.Sh R C (m.set (rho a) (gamma a) (w a)) := sh_set hm _ _ _
    have hba : ∀ j ∈ js, rho j < R ∧ gamma j < C := fun j hj => hb j (List.mem_cons_of_mem a hj)
    have iha := ih (m.set (rho a) (gamma a) (w a)) hma hba p q hq
    constructor
    · rintro ⟨j, hj, hrho, hgamma⟩
      by_cases hjs : ∃ j ∈ js, rho j = p ∧ gamma j = q
      · exact List.foldl_cons _ _ ▸ iha.1 hjs
      · rw [List.foldl_cons]
        rcases List.mem_cons.mp hj with he | hin
        · have hra : rho a = p := he ▸ hrho
          have hga : gamma a = q := he ▸ hgamma
          rw [iha.2 hjs, ← hra, ← hga,
            entry_set_self hm (hb a (List.mem_cons_self a js)).1
              (hb a (List.mem_cons_self a js)).2 (w a), hv]
        · exact absurd ⟨j, hin, hrho, hgamma⟩ hjs
    · intro hnone
      rw [List.foldl_cons]
      have hjs : ¬ ∃ j ∈ js, rho j = p ∧ gamma j = q := by
        intro ⟨j, hj, hh⟩
        exact hnone ⟨j, List.mem_cons_of_mem a hj, hh⟩
      rw [iha.2 hjs]
      have hnea : (rho a, gamma a) ≠ (p, q) := by
        intro hcon
        exact hnone ⟨a, List.mem_cons_self a js,
          (Prod.mk.injEq _ _ _ _).mp hcon |>.1, (Prod.mk.injEq _ _ _ _).mp hcon |>.2⟩
      exact entry_set_ne hm (hb a (List.mem_cons_self a js)).2 hq hnea (w a)

/-- The identity matrix is well-formed and square. -/
theorem sh_identity (n : ℕ) : Matrix.Sh n n (Matrix.identity n) :=
  foldl_preserve (Matrix.Sh n n) (fun m i => m.set i i 1)
    (fun m i h => sh_set h i i 1) (List.range n) _ (sh_new n n)

/-- In-bounds entries of the identity matrix: 1 on the diagonal, 0 elsewhere. -/
theorem identity_entry {n p q : ℕ} (hp : p < n) (hq : q < n) :
    (Matrix.identity n).entry p q = if p = q then 1 else 0 := by
  have h := foldl_set_entry (R := n) (C := n) (fun j => j) (fun j => j) (fun _ => 1)
    (fun _ _ => 1) (fun j => rfl) (List.range n) (Matrix.new n n) (sh_new n n)
    (fun j hj => ⟨List.mem_range.mp hj, List.mem_range.mp hj⟩) p q hq
  by_cases hpq : p = q
  · rw [if_pos hpq]
    exact h.1 ⟨p, List.mem_range.mpr hp, rfl, hpq⟩
  · rw [if_neg hpq]
    refine Eq.trans (h.2 ?_) (entry_new n n p q)
    rintro ⟨j, hj, h1, h2⟩
    exact hpq (by rw [← h1, ← h2])

/-- Entry characterization of the double write loop of the matrix product. -/
theorem rowfill_entry {R C : ℕ} (cell : ℕ → ℕ → F) :
    ∀ (is : List ℕ) (m : Matrix), Matrix.Sh R C m → (∀ i ∈ is, i < R) →
      ∀ p q, q < C →
        ((p ∈ is →
          ((is.foldl (fun acc i =>
              (List.range C).foldl (fun acc2 j => acc2.set i j (cell i j)) acc) m).entry p q
            = cell p q)) ∧
         (p ∉ is →
          ((is.foldl (fun acc i =>
              (List.range C).foldl (fun acc2 j => acc2.set i j (cell i j)) acc) m).entry p q
            = m.entry p q))) := by
  intro is
  induction is with
  | nil =>
    intro m hm hb p q hq
    exact ⟨fun h => absurd h (List.not_mem_nil p), fun _ => rfl⟩
  | cons a is ih =>
    intro m hm hb p q hq
    have ha : a < R := hb a (List.mem_cons_self a is)
    have hinner := foldl_set_entry (R := R) (C := C) (fun _ => a) (fun j => j)
      (fun j => cell a j) cell (fun j => rfl) (List.range C) m hm
      (fun j hj => ⟨ha, List.mem_range.mp hj⟩)
    have hm2 : Matrix.Sh R C ((List.range C).foldl (fun acc2 j => acc2.set a j (cell a j)) m) :=
      foldl_preserve (Matrix.Sh R C) (fun acc2 j => acc2.set a j (cell a j))
        (fun acc j h => sh_set h a j (cell a j)) _ _ hm
    have iha := ih _ hm2 (fun i hi => hb i (List.mem_cons_of_mem a hi)) p q hq
    rw [List.foldl_cons]
    constructor
    · intro hp
      rcases List.mem_cons.mp hp with he | hin
      · by_cases hpin : p ∈ is
        · exact iha.1 hpin
        · rw [iha.2 hpin]
          exact (hinner p q hq).1 ⟨q, List.mem_range.mpr hq, he.symm, rfl⟩
      · exact iha.1 hin
    · intro hnp
      have hne : p ∉ is := fun h => hnp (List.mem_cons_of_mem a h)
      rw [iha.2 hne]
      exact (hinner p q hq).2 (by
        rintro ⟨j, hj, h1, h2⟩
        exact hnp (h1 ▸ List.mem_cons_self a is))

/-- The matrix product: the failure condition, shape, well-formedness and
entries of the result. -/
theorem mulOpt_spec (A B : Matrix) :
    (A.mulOpt B = none ↔ A.ncols ≠ B.nrows) ∧
    (∀ P, A.mulOpt B = some P →
      Matrix.Sh A.nrows B.ncols P ∧
      ∀ i j, i < A.nrows → j < B.ncols → P.entry i j = Matrix.cellVal A B i j) := by
  unfold Matrix.mulOpt
  by_cases hd : A.ncols ≠ B.nrows
  · rw [if_pos hd]
    exact ⟨by simp [hd], fun P hP => by cases hP⟩
  · rw [if_neg hd]
    refine ⟨by simp [hd], ?_⟩
    intro P hP
    injection hP with hPe
    subst hPe
    have hsh : Matrix.Sh A.nrows B.ncols
        ((List.range A.nrows).foldl
          (fun prod i =>
            (List.range B.ncols).foldl
              (fun prod2 j => prod2.set i j (Matrix.cellVal A B i j)) prod)
          (Matrix.new A.nrows B.ncols)) := by
      refine foldl_preserve (Matrix.Sh A.nrows B.ncols) _ (fun m i h => ?_) _ _
        (sh_new A.nrows B.ncols)
      exact foldl_preserve (Matrix.Sh A.nrows B.ncols) _
        (fun m2 j h2 => sh_set h2 i j _) _ _ h
    have hentry := rowfill_entry (R := A.nrows) (C := B.ncols)
      (Matrix.cellVal A B) (List.range A.nrows) (Matrix.new A.nrows B.ncols)
      (sh_new A.nrows B.ncols) (fun i hi => List.mem_range.mp hi)
    refine ⟨hsh, ?_⟩
    intro i j hi hj
    exact (hentry i j hj).1 (List.mem_range.mpr hi)

/-- Two well-formed matrices of the same shape with the same in-bounds entries
are equal. -/
theorem matrix_ext {R C : ℕ} {A B : Matrix} (hA : Matrix.Sh R C A) (hB : Matrix.Sh R C B)
    (h : ∀ p q, p < R → q < C → A.entry p q = B.entry p q) : A = B := by
  obtain ⟨hA1, hA2, hA3⟩ := hA
  obtain ⟨hB1, hB2, hB3⟩ := hB
  rw [Matrix.wf, hA1, hA2] at hA3
  rw [Matrix.wf, hB1, hB2] at hB3
  have hvals : A.vals = B.vals := by
    refine List.ext_getElem (by rw [hA3, hB3]) ?_
    intro n h1 h2
    have hn : n < R * C := by rw [← hA3]; exact h1
    have hC : 0 < C := by
      rcases Nat.eq_zero_or_pos C with hc | hc
      · rw [hc, Nat.mul_zero] at hn; cases Nat.not_lt_zero n hn
      · exact hc
    have hq : n % C < C := Nat.mod_lt n hC
    have hp : n / C < R := Nat.div_lt_iff_lt_mul hC |>.mpr hn
    have hidx : n / C * C + n % C = n := Nat.div_add_mod' n C
    have he := h (n / C) (n % C) hp hq
    unfold Matrix.entry at he
    rw [hA2, hB2, hidx, List.getD_eq_getElem?_getD, List.getD_eq_getElem?_getD,
      List.getElem?_eq_getElem h1, List.getElem?_eq_getElem h2] at he
    simpa using he
  cases A with
  | mk an ac av =>
    cases B with
    | mk bn bc bv =>
      simp only [Matrix.mk.injEq]
      simp only at hA1 hA2 hB1 hB2 hvals
      exact ⟨hA1.trans hB1.symm, hA2.trans hB2.symm, hvals⟩

/-- Accumulating a function over an index range is its finite sum. -/
theorem foldl_add_eq_sum (f : ℕ → F) :
    ∀ (n : ℕ) (a : F),
      (List.range n).foldl (fun acc i => acc + f i) a = a + ∑ i ∈ Finset.range n, f i := by
  intro n
  induction n with
  | zero => intro a; simp
  | succ k ih =>
    intro a
    rw [List.range_succ, List.foldl_append, ih, Finset.sum_range_succ]
    simp [add_assoc]

/-- Entry characterization of the transposed write loop of the inverse: the
inner loop writes column i with values w i j at row j. -/
theorem colfill_entry {n : ℕ} (w : ℕ → ℕ → F) :
    ∀ (is : List ℕ) (m : Matrix), Matrix.Sh n n m → (∀ i ∈ is, i < n) →
      ∀ p q, p < n → q < n →
        ((q ∈ is →
          ((is.foldl (fun acc i =>
              (List.range n).foldl (fun acc2 j => acc2.set j i (w i j)) acc) m).entry p q
            = w q p)) ∧
         (q ∉ is →
          ((is.foldl (fun acc i =>
              (List.range n).foldl (fun acc2 j => acc2.set j i (w i j)) acc) m).entry p q
            = m.entry p q))) := by
  intro is
  induction is with
  | nil =>
    intro m hm hb p q hp hq
    exact ⟨fun h => absurd h (List.not_mem_nil q), fun _ => rfl⟩
  | cons a is ih =>
    intro m hm hb p q hp hq
    have ha : a < n := hb a (List.mem_cons_self a is)
    have hinner := foldl_set_entry (R := n) (C := n) (fun j => j) (fun _ => a)
      (fun j => w a j) (fun p2 q2 => w q2 p2) (fun j => rfl) (List.range n) m hm
      (fun j hj => ⟨List.mem_range.mp hj, ha⟩)
    have hm2 : Matrix.Sh n n ((List.range n).foldl (fun acc2 j => acc2.set j a (w a j)) m) :=
      foldl_preserve (Matrix.Sh n n) (fun acc2 j => acc2.set j a (w a j))
        (fun acc j h => sh_set h j a (w a j)) _ _ hm
    have iha := ih _ hm2 (fun i hi => hb i (List.mem_cons_of_mem a hi)) p q hp hq
    rw [List.foldl_cons]
    constructor
    · intro hqin
      rcases List.mem_cons.mp hqin with he | hin
      · by_cases hqis : q ∈ is
        · exact iha.1 hqis
        · rw [iha.2 hqis]
          exact (hinner p q hq).1 ⟨p, List.mem_range.mpr hp, rfl, he.symm⟩
      · exact iha.1 hin
    · intro hnq
      have hne : q ∉ is := fun h => hnq (List.mem_cons_of_mem a h)
      rw [iha.2 hne]
      exact (hinner p q hq).2 (by
        rintro ⟨j, hj, h1, h2⟩
        exact hnq (h2 ▸ List.mem_cons_self a is))

/-- The inner submatrix loop preserves shape and well-formedness. -/
theorem sh_subInner {R C : ℕ} (m : Matrix) (col i rowid : ℕ) (st : Matrix × ℕ) (n : ℕ)
    (h : Matrix.Sh R C st.1) : Matrix.Sh R C (subInner m col i rowid st n).1 := by
  unfold subInner
  exact foldl_preserve (β := Matrix × ℕ) (fun acc2 => Matrix.Sh R C acc2.1)
    (fun acc2 j =>
      if j = col then acc2
      else (acc2.1.set rowid acc2.2 (m.entry i j), acc2.2 + 1))
    (fun acc2 j hacc2 => by
      dsimp only
      by_cases hj : j = col
      · rw [if_pos hj]; exact hacc2
      · rw [if_neg hj]; exact sh_set hacc2 _ _ _)
    (List.range n) st h

/-- The submatrix has one row and one column fewer, and is well-formed. -/
theorem sh_submatrix (m : Matrix) (row col : ℕ) :
    Matrix.Sh (m.nrows - 1) (m.ncols - 1) (m.submatrix row col) := by
  unfold Matrix.submatrix
  have h := foldl_preserve (β := Matrix × ℕ)
    (fun acc => Matrix.Sh (m.nrows - 1) (m.ncols - 1) acc.1)
    (fun acc i =>
      if i = row then acc
      else ((subInner m col i acc.2 (acc.1, 0) m.ncols).1, acc.2 + 1))
    (fun acc i hacc => by
      dsimp only
      by_cases hi : i = row
      · rw [if_pos hi]; exact hacc
      · rw [if_neg hi]
        exact sh_subInner m col i acc.2 (acc.1, 0) m.ncols hacc)
    (List.range m.nrows) (Matrix.new (m.nrows - 1) (m.ncols - 1), 0)
    (sh_new (m.nrows - 1) (m.ncols - 1))
  exact h

/-- Embedding of the unwrap applied to the matrix products of the transform
builder and the sphere code: the product always exists there because the
shapes are 4 x 4; the default of the totalization is never reached. -/
def Matrix.mulU (A B : Matrix) : Matrix :=
  (A.mulOpt B).getD (Matrix.new 0 0)

/-- Component k of a tuple viewed as the 4 x 1 column [x, y, z, w]. -/
def tcomp (t : Tuple) (k : ℕ) : F :=
  [t.x, t.y, t.z, t.w].getD k 0

/-- The unwrapped product of two 4 x 4 well-formed matrices is the 4 x 4 dense
product. -/
theorem mulU_spec {A B : Matrix} (hA : Matrix.Sh 4 4 A) (hB : Matrix.Sh 4 4 B) :
    Matrix.Sh 4 4 (A.mulU B) ∧
    ∀ i j, i < 4 → j < 4 →
      (A.mulU B).entry i j = ∑ k ∈ Finset.range 4, A.entry i k * B.entry k j := by
  have hd : ¬ A.ncols ≠ B.nrows := by rw [hA.2.1, hB.1]; simp
  cases hP : A.mulOpt B with
  | none => exact absurd ((mulOpt_spec A B).1.mp hP) hd
  | some P =>
    obtain ⟨hsh, hent⟩ := (mulOpt_spec A B).2 P hP
    have hPU : A.mulU B = P := by rw [Matrix.mulU, hP]; rfl
    rw [hPU]
    rw [hA.1, hB.2.1] at hsh
    refine ⟨hsh, ?_⟩
    intro i j hi hj
    rw [hent i j (by rw [hA.1]; exact hi) (by rw [hB.2.1]; exact hj),
      Matrix.cellVal, foldl_add_eq_sum, zero_add, hA.2.1]

/-- The matrix-tuple product of a well-formed 4 x 4 matrix is the column
product, componentwise the row sums against the tuple components. -/
theorem mulTupleR_ok (A : Matrix) (t : Tuple) (hc : A.ncols = 4) (hr : A.nrows = 4) :
    A.mulTupleR t = .ok (Tuple.new
      (∑ k ∈ Finset.range 4, A.entry 0 k * tcomp t k)
      (∑ k ∈ Finset.range 4, A.entry 1 k * tcomp t k)
      (∑ k ∈ Finset.range 4, A.entry 2 k * tcomp t k)
      (∑ k ∈ Finset.range 4, A.entry 3 k * tcomp t k)) := by
  unfold Matrix.mulTupleR
  rw [if_neg (by omega)]
  have hfa : Matrix.from_array A.nrows 1 [t.x, t.y, t.z, t.w]
      = some ⟨A.nrows, 1, [t.x, t.y, t.z, t.w]⟩ := by
    unfold Matrix.from_array
    rw [if_neg (by simp [hr])]
  rw [hfa]
  set b : Matrix := ⟨A.nrows, 1, [t.x, t.y, t.z, t.w]⟩ with hb
  have hd : A.ncols = b.nrows := by rw [hb, hc, hr]
  cases hmul : A.mulOpt b with
  | none => rw [(mulOpt_spec A b).1] at hmul; exact absurd hd hmul
  | some prod =>
    obtain ⟨⟨hP1, hP2, hP3⟩, hPe⟩ := (mulOpt_spec A b).2 prod hmul
    have hone : (0 : ℕ) < b.ncols := by simp [hb]
    have hbe : ∀ k, b.entry k 0 = tcomp t k := by
      intro k
      rw [hb, tcomp]
      unfold Matrix.entry
      simp
    have hsum : ∀ i, i < A.nrows →
        prod.entry i 0 = ∑ k ∈ Finset.range 4, A.entry i k * tcomp t k := by
      intro i hi
      rw [hPe i 0 hi hone, Matrix.cellVal, foldl_add_eq_sum, zero_add, hc]
      exact Finset.sum_congr rfl (fun k _ => by rw [hbe k])
    simp only [hmul]
    unfold Tuple.new
    rw [hsum 0 (by omega), hsum 1 (by omega), hsum 2 (by omega), hsum 3 (by omega)]

/-- C7 (amended): matrix-matrix multiplication fails (returns the absent
value) exactly when the inner dimensions disagree, and otherwise produces the
standard dense product with the expected shape; matrix-tuple multiplication
returns its absent value exactly when the matrix has a column count other
than 4, treats the tuple as a 4 x 1 column and returns the product when the
matrix is 4 x 4, but panics (rather than returning the absent value or a
product) when the column count is 4 and the row count is not 4, because the
intermediate from_array call packs the four tuple components into an
nrows x 1 matrix and is unwrapped. -/
theorem c7_mul_amended (A B : Matrix) (t : Tuple) :
    (A.mulOpt B = none ↔ A.ncols ≠ B.nrows) ∧
    (∀ P, A.mulOpt B = some P →
      P.nrows = A.nrows ∧ P.ncols = B.ncols ∧
      ∀ i j, i < A.nrows → j < B.ncols →
        P.entry i j = ∑ k ∈ Finset.range A.ncols, A.entry i k * B.entry k j) ∧
    (A.mulTupleR t = .dimMismatch ↔ A.ncols ≠ 4) ∧
    (A.ncols = 4 → A.nrows ≠ 4 → A.mulTupleR t = .panicked) ∧
    (A.ncols = 4 → A.nrows = 4 →
      A.mulTupleR t = .ok (Tuple.new
        (A.entry 0 0 * t.x + A.entry 0 1 * t.y + A.entry 0 2 * t.z + A.entry 0 3 * t.w)
        (A.entry 1 0 * t.x + A.entry 1 1 * t.y + A.entry 1 2 * t.z + A.entry 1 3 * t.w)
        (A.entry 2 0 * t.x + A.entry 2 1 * t.y + A.entry 2 2 * t.z + A.entry 2 3 * t.w)
        (A.entry 3 0 * t.x + A.entry 3 1 * t.y + A.entry 3 2 * t.z + A.entry 3 3 * t.w))) := by
  have hmm := mulOpt_spec A B
  refine ⟨hmm.1, ?_, ?_, ?_, ?_⟩
  · intro P hP
    obtain ⟨⟨hP1, hP2, hP3⟩, hPe⟩ := hmm.2 P hP
    refine ⟨hP1, hP2, ?_⟩
    intro i j hi hj
    rw [hPe i j hi hj, Matrix.cellVal, foldl_add_eq_sum, zero_add]
  · unfold Matrix.mulTupleR
    by_cases hc : A.ncols ≠ 4
    · rw [if_pos hc]
      simp [hc]
    · rw [if_neg hc]
      simp only [hc]
      cases hfa : Matrix.from_array A.nrows 1 [t.x, t.y, t.z, t.w] with
      | none => simp [hc]
      | some b =>
        cases hmul : A.mulOpt b with
        | none => simp [hmul, hc]
        | some prod => simp [hmul, hc]
  · intro hc hr
    unfold Matrix.mulTupleR
    rw [if_neg (by omega)]
    have hfa : Matrix.from_array A.nrows 1 [t.x, t.y, t.z, t.w] = none := by
      unfold Matrix.from_array
      rw [if_pos (by simp; omega)]
    rw [hfa]
  · intro hc hr
    rw [mulTupleR_ok A t hc hr]
    have hexp : ∀ i, ∑ k ∈ Finset.range 4, A.entry i k * tcomp t k
        = A.entry i 0 * t.x + A.entry i 1 * t.y + A.entry i 2 * t.z + A.entry i 3 * t.w := by
      intro i
      rw [Finset.sum_range_succ, Finset.sum_range_succ, Finset.sum_range_succ,
        Finset.sum_range_succ, Finset.sum_range_zero]
      simp [tcomp]
    unfold Tuple.new
    rw [hexp 0, hexp 1, hexp 2, hexp 3]

/-- C5: inverse() fails exactly when the determinant is 0, and otherwise
returns the matrix whose entry at row c, column r is cofactor(r, c) divided by
the determinant (the transposed-adjugate construction); the receiver is a pure
value and is never modified. -/
theorem c5_inverse (m : Matrix) (hsq : m.nrows = m.ncols) :
    (m.inverse = none ↔ m.det = 0) ∧
    (∀ inv, m.inverse = some inv →
      inv.nrows = m.nrows ∧ inv.ncols = m.ncols ∧ inv.wf ∧
      ∀ r c, r < m.nrows → c < m.ncols →
        inv.entry c r = m.cofactor r c / m.det) := by
  unfold Matrix.inverse
  by_cases hdet : m.det = 0
  · rw [if_pos hdet]
    exact ⟨by simp [hdet], fun inv hinv => by cases hinv⟩
  · rw [if_neg hdet]
    refine ⟨by simp [hdet], ?_⟩
    intro inv hinv
    injection hinv with hinve
    subst hinve
    rw [hsq]
    have hsh : Matrix.Sh m.ncols m.ncols
        ((List.range m.ncols).foldl
          (fun inv2 i =>
            (List.range m.ncols).foldl
              (fun inv3 j => inv3.set j i (m.cofactor i j / m.det)) inv2)
          (Matrix.new m.ncols m.ncols)) := by
      refine foldl_preserve (Matrix.Sh m.ncols m.ncols) _ (fun m2 i h => ?_) _ _
        (sh_new m.ncols m.ncols)
      exact foldl_preserve (Matrix.Sh m.ncols m.ncols) _
        (fun m3 j h2 => sh_set h2 j i _) _ _ h
    have hcol := colfill_entry (n := m.ncols) (fun i j => m.cofactor i j / m.det)
      (List.range m.ncols) (Matrix.new m.ncols m.ncols) (sh_new m.ncols m.ncols)
      (fun i hi => List.mem_range.mp hi)
    exact ⟨hsh.1, hsh.2.1, hsh.2.2, fun r c hr hc =>
      (hcol c r hc hr).1 (List.mem_range.mpr hr)⟩

/-- Number of columns already written by the inner submatrix loop after
processing source columns 0 to n-1 while skipping column col. -/
def colsDone (col n : ℕ) : ℕ := n - (if col < n then 1 else 0)

/-- Entry characterization of the inner submatrix loop: it fills row rowid of
the target with the entries of source row i, skipping source column col and
compacting the following columns left by one; other rows are untouched. -/
theorem subInner_entry {R C : ℕ} (m : Matrix) (col : ℕ) (hcol : col < C)
    (i rowid : ℕ) (hrowid : rowid < R - 1) :
    ∀ (n : ℕ), n ≤ C → ∀ (mat : Matrix), Matrix.Sh (R - 1) (C - 1) mat →
      ((subInner m col i rowid (mat, 0) n).2 = colsDone col n) ∧
      (∀ p q, q < C - 1 →
         ((p = rowid ∧ q < colsDone col n) →
            (subInner m col i rowid (mat, 0) n).1.entry p q
              = m.entry i (if q < col then q else q + 1)) ∧
         (¬(p = rowid ∧ q < colsDone col n) →
            (subInner m col i rowid (mat, 0) n).1.entry p q = mat.entry p q)) := by
  intro n
  induction n with
  | zero =>
    intro hn mat hmat
    refine ⟨rfl, ?_⟩
    intro p q hq
    constructor
    · rintro ⟨h1, h2⟩
      exfalso
      simp [colsDone] at h2
    · intro _
      rfl
  | succ n ih =>
    intro hn mat hmat
    obtain ⟨ih1, ih3⟩ := ih (by omega) mat hmat
    have ih2 : Matrix.Sh (R - 1) (C - 1) (subInner m col i rowid (mat, 0) n).1 :=
      sh_subInner m col i rowid (mat, 0) n hmat
    have hunf : subInner m col i rowid (mat, 0) (n + 1)
        = (if n = col then subInner m col i rowid (mat, 0) n
           else ((subInner m col i rowid (mat, 0) n).1.set rowid
                   (subInner m col i rowid (mat, 0) n).2 (m.entry i n),
                 (subInner m col i rowid (mat, 0) n).2 + 1)) := by
      unfold subInner
      rw [List.range_succ, List.foldl_append, List.foldl_cons, List.foldl_nil]
    by_cases hj : n = col
    · rw [hunf, if_pos hj]
      have hcolid : colsDone col n = colsDone col (n + 1) := by
        unfold colsDone
        subst hj
        simp [Nat.lt_irrefl]
      refine ⟨by rw [← hcolid]; exact ih1, ?_⟩
      intro p q hq
      rw [← hcolid]
      exact ih3 p q hq
    · rw [hunf, if_neg hj]
      have hstep : colsDone col n + 1 = colsDone col (n + 1) := by
        unfold colsDone
        by_cases hcn : col < n
        · rw [if_pos hcn, if_pos (by omega)]
          omega
        · have hgt : n < col := by omega
          rw [if_neg hcn, if_neg (by omega)]
          omega
      have hbound : colsDone col n < C - 1 := by
        unfold colsDone
        by_cases hcn : col < n
        · rw [if_pos hcn]
          omega
        · have hgt : n < col := by omega
          rw [if_neg hcn]
          omega
      refine ⟨by simp only [ih1, hstep], ?_⟩
      intro p q hq
      constructor
      · rintro ⟨hp, hqlt⟩
        rw [← hstep] at hqlt
        simp only [ih1]
        by_cases hqold : q < colsDone col n
        · rw [entry_set_ne ih2 hbound hq (by
            intro hcon
            have h5 := (Prod.mk.injEq _ _ _ _).mp hcon
            omega) _]
          exact (ih3 p q hq).1 ⟨hp, hqold⟩
        · have hqe : q = colsDone col n := by omega
          rw [hp, hqe, entry_set_self ih2 hrowid (hqe ▸ hbound) _]
          congr 1
          unfold colsDone at hqe
          by_cases hcn : col < n
          · rw [if_pos hcn] at hqe
            rw [if_neg (by omega)]
            omega
          · have hgt : n < col := by omega
            rw [if_neg hcn] at hqe
            rw [if_pos (by omega)]
            omega
      · intro hnot
        rw [← hstep] at hnot
        have hnotold : ¬(p = rowid ∧ q < colsDone col n) := by
          intro ⟨h1, h2⟩
          exact hnot ⟨h1, by omega⟩
        simp only [ih1]
        rw [entry_set_ne ih2 hbound hq (by
          intro hcon
          have h5 := (Prod.mk.injEq _ _ _ _).mp hcon
          exact hnot ⟨h5.1.symm, by omega⟩) _]
        exact (ih3 p q hq).2 hnotold

/-- Number of rows already written by the outer submatrix loop after
processing source rows 0 to n-1 while skipping row. -/
def rowsDone (row n : ℕ) : ℕ := n - (if row < n then 1 else 0)

/-- Entry characterization of the outer submatrix loop: the first rowsDone
rows of the target hold the source rows with the skipped row and column
removed and later indices shifted down by one. -/
theorem submatrix_outer (m : Matrix) (row col : ℕ)
    (hrow : row < m.nrows) (hcol : col < m.ncols) :
    ∀ (n : ℕ), n ≤ m.nrows →
      (((List.range n).foldl
          (fun (acc : Matrix × ℕ) i =>
            if i = row then acc
            else ((subInner m col i acc.2 (acc.1, 0) m.ncols).1, acc.2 + 1))
          (Matrix.new (m.nrows - 1) (m.ncols - 1), 0)).2 = rowsDone row n) ∧
      Matrix.Sh (m.nrows - 1) (m.ncols - 1)
        (((List.range n).foldl
          (fun (acc : Matrix × ℕ) i =>
            if i = row then acc
            else ((subInner m col i acc.2 (acc.1, 0) m.ncols).1, acc.2 + 1))
          (Matrix.new (m.nrows - 1) (m.ncols - 1), 0)).1) ∧
      ∀ p q, q < m.ncols - 1 →
        (p < rowsDone row n →
          (((List.range n).foldl
            (fun (acc : Matrix × ℕ) i =>
              if i = row then acc
              else ((subInner m col i acc.2 (acc.1, 0) m.ncols).1, acc.2 + 1))
            (Matrix.new (m.nrows - 1) (m.ncols - 1), 0)).1.entry p q
            = m.entry (if p < row then p else p + 1) (if q < col then q else q + 1))) := by
  intro n
  induction n with
  | zero =>
    intro hn
    refine ⟨rfl, sh_new _ _, ?_⟩
    intro p q hq hp
    exfalso
    simp [rowsDone] at hp
  | succ n ih =>
    intro hn
    obtain ⟨ih1, ih2, ih3⟩ := ih (by omega)
    have hunf : ((List.range (n + 1)).foldl
        (fun (acc : Matrix × ℕ) i =>
          if i = row then acc
          else ((subInner m col i acc.2 (acc.1, 0) m.ncols).1, acc.2 + 1))
        (Matrix.new (m.nrows - 1) (m.ncols - 1), 0))
        = (if n = row then
            ((List.range n).foldl
              (fun (acc : Matrix × ℕ) i =>
                if i = row then acc
                else ((subInner m col i acc.2 (acc.1, 0) m.ncols).1, acc.2 + 1))
              (Matrix.new (m.nrows - 1) (m.ncols - 1), 0))
          else
            ((subInner m col n
                ((List.range n).foldl
                  (fun (acc : Matrix × ℕ) i =>
                    if i = row then acc
                    else ((subInner m col i acc.2 (acc.1, 0) m.ncols).1, acc.2 + 1))
                  (Matrix.new (m.nrows - 1) (m.ncols - 1), 0)).2
                (((List.range n).foldl
                  (fun (acc : Matrix × ℕ) i =>
                    if i = row then acc
                    else ((subInner m col i acc.2 (acc.1, 0) m.ncols).1, acc.2 + 1))
                  (Matrix.new (m.nrows - 1) (m.ncols - 1), 0)).1, 0) m.ncols).1,
              ((List.range n).foldl
                (fun (acc : Matrix × ℕ) i =>
                  if i = row then acc
                  else ((subInner m col i acc.2 (acc.1, 0) m.ncols).1, acc.2 + 1))
                (Matrix.new (m.nrows - 1) (m.ncols - 1), 0)).2 + 1)) := by
      rw [List.range_succ, List.foldl_append, List.foldl_cons, List.foldl_nil]
    by_cases hj : n = row
    · rw [hunf, if_pos hj]
      have hrd : rowsDone row n = rowsDone row (n + 1) := by
        unfold rowsDone
        subst hj
        simp [Nat.lt_irrefl]
      exact ⟨by rw [← hrd]; exact ih1, ih2, fun p q hq hp => ih3 p q hq (by omega)⟩
    · rw [hunf, if_neg hj]
      have hridbound : rowsDone row n < m.nrows - 1 := by
        unfold rowsDone
        by_cases hrn : row < n
        · rw [if_pos hrn]
          omega
        · have hgt : n < row := by omega
          rw [if_neg hrn]
          omega
      have hstep : rowsDone row n + 1 = rowsDone row (n + 1) := by
        unfold rowsDone
        by_cases hrn : row < n
        · rw [if_pos hrn, if_pos (by omega)]
          omega
        · have hgt : n < row := by omega
          rw [if_neg hrn, if_neg (by omega)]
          omega
      have hin := subInner_entry (R := m.nrows) (C := m.ncols) m col hcol n
        (rowsDone row n) hridbound m.ncols (le_refl _) _ ih2
      have hcd : colsDone col m.ncols = m.ncols - 1 := by
        unfold colsDone
        rw [if_pos hcol]
      refine ⟨?_, ?_, ?_⟩
      · simp only [ih1]
        exact hstep
      · simp only [ih1]
        exact sh_subInner m col n (rowsDone row n) _ m.ncols ih2
      · intro p q hq hp
        simp only [ih1]
        rw [← hstep] at hp
        by_cases hple : p < rowsDone row n
        · rw [(hin.2 p q hq).2 (by
            rintro ⟨hpe, -⟩
            omega)]
          exact ih3 p q hq hple
        · have hpe : p = rowsDone row n := by omega
          rw [(hin.2 p q hq).1 ⟨hpe, by rw [hcd]; exact hq⟩]
          congr 1
          unfold rowsDone at hpe
          by_cases hrn : row < n
          · rw [if_pos hrn] at hpe
            rw [if_neg (by omega)]
            omega
          · have hgt : n < row := by omega
            rw [if_neg hrn] at hpe
            rw [if_pos (by omega)]
            omega

/-- The submatrix is the source with row and column removed: entry (p, q) of
submatrix(row, col) is the source entry at the row and column indices shifted
past the removed ones. -/
theorem submatrix_entry (m : Matrix) {row col : ℕ}
    (hrow : row < m.nrows) (hcol : col < m.ncols) (p q : ℕ)
    (hp : p < m.nrows - 1) (hq : q < m.ncols - 1) :
    (m.submatrix row col).entry p q
      = m.entry (if p < row then p else p + 1) (if q < col then q else q + 1) := by
  unfold Matrix.submatrix
  have h := submatrix_outer m row col hrow hcol m.nrows (le_refl _)
  refine h.2.2 p q hq ?_
  unfold rowsDone
  rw [if_pos hrow]
  exact hp

/-- C6: the determinant of a square matrix of size at least 2 is ad - bc in
the 2 x 2 base case and, for larger sizes, the Laplace expansion along row 0;
cofactor(r, c) is minor(r, c) times (-1)^(r+c), and minor(r, c) is the
determinant of the submatrix with row r and column c removed. -/
theorem c6_det_laplace (m : Matrix) (hsq : m.nrows = m.ncols) (h2 : 2 ≤ m.nrows) :
    (m.nrows = 2 → m.det = m.entry 0 0 * m.entry 1 1 - m.entry 0 1 * m.entry 1 0) ∧
    (2 < m.nrows → m.det = ∑ j ∈ Finset.range m.ncols, m.entry 0 j * m.cofactor 0 j) ∧
    (∀ r c, m.cofactor r c = m.minor r c * (-1 : F) ^ (r + c)) ∧
    (∀ r c, m.minor r c = (m.submatrix r c).det) ∧
    (∀ r c p q, r < m.nrows → c < m.ncols → p < m.nrows - 1 → q < m.ncols - 1 →
      (m.submatrix r c).entry p q
        = m.entry (if p < r then p else p + 1) (if q < c then q else q + 1)) := by
  refine ⟨?_, ?_, ?_, fun r c => rfl,
    fun r c p q hr hc hp hq => submatrix_entry m hr hc p q hp hq⟩
  · intro hn2
    have hc2 : m.ncols = 2 := hsq.symm.trans hn2
    rw [Matrix.det, hn2, show (2 : ℕ) = 1 + 1 from rfl]
    simp only [Matrix.detAux]
    rw [if_pos ⟨hn2, hc2⟩]
    unfold Matrix.entry
    rw [hc2]
  · intro h3
    obtain ⟨k, hk⟩ : ∃ k, m.nrows = k + 1 := ⟨m.nrows - 1, by omega⟩
    have h3b : 2 < k + 1 := hk ▸ h3
    rw [Matrix.det, hk]
    simp only [Matrix.detAux]
    rw [if_neg (by rintro ⟨h4, -⟩; omega)]
    rw [foldl_add_eq_sum, zero_add]
    refine Finset.sum_congr rfl ?_
    intro j hj
    congr 1
    rw [Matrix.cofactor, Matrix.minor, Matrix.det]
    have hsub : (m.submatrix 0 j).nrows = k := by
      have := (sh_submatrix m 0 j).1
      omega
    rw [hsub]
  · intro r c
    rw [Matrix.cofactor]
    rcases Nat.even_or_odd (r + c) with he | ho
    · rw [if_neg (by simp [Nat.even_iff.mp he]), he.neg_one_pow, mul_one]
    · rw [if_pos (by simp [Nat.odd_iff.mp ho]), ho.neg_one_pow, mul_neg_one]

/-- A concrete 3 x 3 matrix (from the repository's determinant test). -/
def A3 : Matrix := ⟨3, 3, [1, 2, 6, -5, 8, -4, 2, 6, 4]⟩

/-- Determinant of the concrete 3 x 3 matrix, evaluated. -/
theorem detA3 : A3.det = -196 :=
  of_decide_eq_true (by with_unfolding_all rfl)

/-- C6: concrete witness, the Laplace-expansion clause of the determinant
theorem applied to the concrete 3 x 3 matrix. -/
theorem c6_witness :
    A3.det = ∑ j ∈ Finset.range A3.ncols, A3.entry 0 j * A3.cofactor 0 j :=
  (c6_det_laplace A3 rfl (by norm_num [A3])).2.1 (by norm_num [A3])

/-- C5: concrete witness, the failure clause of the inverse theorem applied to
the concrete 3 x 3 matrix, together with its evaluated determinant showing the
inverse exists. -/
theorem c5_witness :
    (A3.inverse = none ↔ A3.det = 0) ∧ A3.inverse ≠ none := by
  have h := (c5_inverse A3 rfl).1
  refine ⟨h, ?_⟩
  intro hcon
  rw [h, detA3] at hcon
  norm_num at hcon

/-- C7 counterexample: a well-formed 2 x 4 matrix has 4 columns, so the claim
says matrix-tuple multiplication returns the 4 x 1 column product; the code
instead panics, because it packs the four tuple components into an
nrows x 1 = 2 x 1 matrix through from_array and unwraps the failure. -/
theorem c7_counterexample :
    (Matrix.mk 2 4 [1, 2, 3, 4, 5, 6, 7, 8]).wf ∧
    (Matrix.mk 2 4 [1, 2, 3, 4, 5, 6, 7, 8]).ncols = 4 ∧
    Matrix.mulTupleR (Matrix.mk 2 4 [1, 2, 3, 4, 5, 6, 7, 8]) (Tuple.point 1 2 3)
      = .panicked :=
  ⟨by simp [Matrix.wf], rfl, of_decide_eq_true (by with_unfolding_all rfl)⟩

/-- C7: concrete witness, the 4 x 4 clause of the multiplication theorem
applied to the identity matrix and a point, then evaluated. -/
theorem c7_witness :
    (Matrix.identity 4).mulTupleR (Tuple.point 1 2 3) = .ok (Tuple.new 1 2 3 1) := by
  have h := (c7_mul_amended (Matrix.identity 4) (Matrix.identity 4)
    (Tuple.point 1 2 3)).2.2.2.2 rfl rfl
  rw [h]
  exact of_decide_eq_true (by with_unfolding_all rfl)

/-- The translation factory is a well-formed 4 x 4 matrix. -/
theorem sh_translation (x y z : F) : Matrix.Sh 4 4 (Matrix.translation x y z) :=
  sh_set (sh_set (sh_set (sh_identity 4) 0 3 x) 1 3 y) 2 3 z

/-- The scaling factory is a well-formed 4 x 4 matrix. -/
theorem sh_scaling (x y z : F) : Matrix.Sh 4 4 (Matrix.scaling x y z) :=
  sh_set (sh_set (sh_set (sh_identity 4) 0 0 x) 1 1 y) 2 2 z

/-- The shearing factory is a well-formed 4 x 4 matrix. -/
theorem sh_shearing (x_y x_z y_x y_z z_x z_y : F) :
    Matrix.Sh 4 4 (Matrix.shearing x_y x_z y_x y_z z_x z_y) := by
  unfold Matrix.shearing Matrix.from_array
  rw [if_neg (by simp)]
  exact ⟨rfl, rfl, rfl⟩

/-- The x-rotation factory is a well-formed 4 x 4 matrix. -/
theorem sh_rotation_x (c s : F) : Matrix.Sh 4 4 (Matrix.rotation_x c s) := by
  unfold Matrix.rotation_x Matrix.from_array
  rw [if_neg (by simp)]
  exact ⟨rfl, rfl, rfl⟩

/-- The y-rotation factory is a well-formed 4 x 4 matrix. -/
theorem sh_rotation_y (c s : F) : Matrix.Sh 4 4 (Matrix.rotation_y c s) := by
  unfold Matrix.rotation_y Matrix.from_array
  rw [if_neg (by simp)]
  exact ⟨rfl, rfl, rfl⟩

/-- The z-rotation factory is a well-formed 4 x 4 matrix. -/
theorem sh_rotation_z (c s : F) : Matrix.Sh 4 4 (Matrix.rotation_z c s) := by
  unfold Matrix.rotation_z Matrix.from_array
  rw [if_neg (by simp)]
  exact ⟨rfl, rfl, rfl⟩

/-- Row i of the identity matrix picks out component i. -/
theorem identity_row_sum (t : Tuple) (i : ℕ) (hi : i < 4) :
    ∑ k ∈ Finset.range 4, (Matrix.identity 4).entry i k * tcomp t k = tcomp t i := by
  have h1 : ∀ k ∈ Finset.range 4, (Matrix.identity 4).entry i k * tcomp t k
      = if i = k then tcomp t k else 0 := by
    intro k hk
    rw [identity_entry hi (Finset.mem_range.mp hk)]
    split <;> simp
  rw [Finset.sum_congr rfl h1, Finset.sum_ite_eq]
  rw [if_pos (Finset.mem_range.mpr hi)]

/-- The identity matrix maps every tuple to itself. -/
theorem mulTupleR_identity (t : Tuple) : (Matrix.identity 4).mulTupleR t = .ok t := by
  rw [mulTupleR_ok (Matrix.identity 4) t (sh_identity 4).2.1 (sh_identity 4).1]
  rw [identity_row_sum t 0 (by omega), identity_row_sum t 1 (by omega),
    identity_row_sum t 2 (by omega), identity_row_sum t 3 (by omega)]
  cases t
  rfl

/-- Applying an unwrapped product of 4 x 4 matrices to a tuple applies the
right factor first and the left factor second. -/
theorem mulTupleR_mulU {A B : Matrix} (hA : Matrix.Sh 4 4 A) (hB : Matrix.Sh 4 4 B)
    (t u : Tuple) (hu : B.mulTupleR t = .ok u) :
    (A.mulU B).mulTupleR t = A.mulTupleR u := by
  rw [mulTupleR_ok B t hB.2.1 hB.1] at hu
  injection hu with hu2
  obtain ⟨hABsh, hABe⟩ := mulU_spec hA hB
  have key : ∀ i, i < 4 →
      (∑ k ∈ Finset.range 4, (A.mulU B).entry i k * tcomp t k)
        = ∑ l ∈ Finset.range 4,
            A.entry i l * ∑ k ∈ Finset.range 4, B.entry l k * tcomp t k := by
    intro i hi
    calc ∑ k ∈ Finset.range 4, (A.mulU B).entry i k * tcomp t k
        = ∑ k ∈ Finset.range 4,
            (∑ l ∈ Finset.range 4, A.entry i l * B.entry l k) * tcomp t k :=
          Finset.sum_congr rfl (fun k hk => by rw [hABe i k hi (Finset.mem_range.mp hk)])
      _ = ∑ k ∈ Finset.range 4, ∑ l ∈ Finset.range 4,
            A.entry i l * B.entry l k * tcomp t k :=
          Finset.sum_congr rfl (fun k hk => by rw [Finset.sum_mul])
      _ = ∑ l ∈ Finset.range 4, ∑ k ∈ Finset.range 4,
            A.entry i l * B.entry l k * tcomp t k := Finset.sum_comm
      _ = ∑ l ∈ Finset.range 4,
            A.entry i l * ∑ k ∈ Finset.range 4, B.entry l k * tcomp t k := by
          refine Finset.sum_congr rfl (fun l hl => ?_)
          rw [Finset.mul_sum]
          exact Finset.sum_congr rfl (fun k hk => by ring)
  rw [mulTupleR_ok (A.mulU B) t hABsh.2.1 hABsh.1, mulTupleR_ok A u hA.2.1 hA.1]
  have hcomp : ∀ i, i < 4 →
      (∑ l ∈ Finset.range 4, A.entry i l * tcomp u l)
        = ∑ l ∈ Finset.range 4,
            A.entry i l * ∑ k ∈ Finset.range 4, B.entry l k * tcomp t k := by
    intro i hi
    refine Finset.sum_congr rfl (fun l hl => ?_)
    rw [← hu2]
    congr 1
    have hl4 := Finset.mem_range.mp hl
    interval_cases l <;> rfl
  rw [key 0 (by omega), key 1 (by omega), key 2 (by omega), key 3 (by omega),
    hcomp 0 (by omega), hcomp 1 (by omega), hcomp 2 (by omega), hcomp 3 (by omega)]

/-- Embedding of the TransformBuilder struct of transform.rs: it holds the
accumulated matrix. -/
structure TransformBuilder where
  matrix : Matrix
deriving DecidableEq, Repr

/-- Embedding of TransformBuilder::new: start from the identity. -/
def TransformBuilder.new (size : ℕ) : TransformBuilder :=
  ⟨Matrix.identity size⟩

/-- Embedding of TransformBuilder::rotate_x: left-multiply the rotation factor
(parameterized by cosine and sine) onto the accumulator; the unwrap of the
source is the totalized product. -/
def TransformBuilder.rotate_x (b : TransformBuilder) (c s : F) : TransformBuilder :=
  ⟨(Matrix.rotation_x c s).mulU b.matrix⟩

/-- Embedding of TransformBuilder::rotate_y. -/
def TransformBuilder.rotate_y (b : TransformBuilder) (c s : F) : TransformBuilder :=
  ⟨(Matrix.rotation_y c s).mulU b.matrix⟩

/-- Embedding of TransformBuilder::rotate_z. -/
def TransformBuilder.rotate_z (b : TransformBuilder) (c s : F) : TransformBuilder :=
  ⟨(Matrix.rotation_z c s).mulU b.matrix⟩

/-- Embedding of TransformBuilder::scale. -/
def TransformBuilder.scale (b : TransformBuilder) (x y z : F) : TransformBuilder :=
  ⟨(Matrix.scaling x y z).mulU b.matrix⟩

/-- Embedding of TransformBuilder::translate. -/
def TransformBuilder.translate (b : TransformBuilder) (x y z : F) : TransformBuilder :=
  ⟨(Matrix.translation x y z).mulU b.matrix⟩

/-- Embedding of TransformBuilder::shear. -/
def TransformBuilder.shear (b : TransformBuilder) (x_y x_z y_x y_z z_x z_y : F) :
    TransformBuilder :=
  ⟨(Matrix.shearing x_y x_z y_x y_z z_x z_y).mulU b.matrix⟩

/-- Embedding of TransformBuilder::build: return the accumulated matrix. -/
def TransformBuilder.build (b : TransformBuilder) : Matrix :=
  b.matrix

/-- One fluent call of the transform builder, with the scalar arguments of the
source call (rotations carry the cosine and sine of the angle). -/
inductive Call where
  | rotateX : F → F → Call
  | rotateY : F → F → Call
  | rotateZ : F → F → Call
  | scale : F → F → F → Call
  | translate : F → F → F → Call
  | shear : F → F → F → F → F → F → Call
deriving DecidableEq, Repr

/-- The factor matrix a call produces. -/
def Call.factor : Call → Matrix
  | .rotateX c s => Matrix.rotation_x c s
  | .rotateY c s => Matrix.rotation_y c s
  | .rotateZ c s => Matrix.rotation_z c s
  | .scale x y z => Matrix.scaling x y z
  | .translate x y z => Matrix.translation x y z
  | .shear x_y x_z y_x y_z z_x z_y => Matrix.shearing x_y x_z y_x y_z z_x z_y

/-- Dispatch of a call to the corresponding builder method. -/
def Call.applyTo (b : TransformBuilder) : Call → TransformBuilder
  | .rotateX c s => b.rotate_x c s
  | .rotateY c s => b.rotate_y c s
  | .rotateZ c s => b.rotate_z c s
  | .scale x y z => b.scale x y z
  | .translate x y z => b.translate x y z
  | .shear x_y x_z y_x y_z z_x z_y => b.shear x_y x_z y_x y_z z_x z_y

/-- Every factor matrix is a well-formed 4 x 4 matrix. -/
theorem sh_factor (c : Call) : Matrix.Sh 4 4 c.factor := by
  cases c with
  | rotateX c s => exact sh_rotation_x c s
  | rotateY c s => exact sh_rotation_y c s
  | rotateZ c s => exact sh_rotation_z c s
  | scale x y z => exact sh_scaling x y z
  | translate x y z => exact sh_translation x y z
  | shear a b c d e f => exact sh_shearing a b c d e f

/-- Every builder method left-multiplies its factor onto the accumulator. -/
theorem applyTo_matrix (b : TransformBuilder) (c : Call) :
    (Call.applyTo b c).matrix = c.factor.mulU b.matrix := by
  cases c <;> rfl

/-- Result of applying a list of factor matrices to a tuple in list order. -/
def applyChain (ms : List Matrix) (t : Tuple) : MulTupleRes :=
  ms.foldl
    (fun res A =>
      match res with
      | .ok u => A.mulTupleR u
      | r => r)
    (.ok t)

/-- Folding the builder from any well-formed 4 x 4 accumulator produces the
right-to-left product of the factors applied to that accumulator. -/
theorem builder_foldl (calls : List Call) :
    ∀ (M : Matrix),
      (calls.foldl Call.applyTo ⟨M⟩).build
        = (calls.map Call.factor).reverse.foldr Matrix.mulU M := by
  induction calls with
  | nil => intro M; rfl
  | cons c cs ih =>
    intro M
    rw [List.foldl_cons, List.map_cons, List.reverse_cons, List.foldr_append]
    have h1 : Call.applyTo ⟨M⟩ c = ⟨c.factor.mulU M⟩ := by
      have := applyTo_matrix ⟨M⟩ c
      cases happ : Call.applyTo ⟨M⟩ c
      rw [happ] at this
      simp only at this
      rw [this]
    rw [h1, ih]
    rfl

/-- Applying the right-to-left factor product to a tuple applies the factors
in list order, provided every matrix involved is well-formed 4 x 4. -/
theorem foldr_mulU_apply (ms : List Matrix) (hms : ∀ A ∈ ms, Matrix.Sh 4 4 A) :
    ∀ (X : Matrix), Matrix.Sh 4 4 X → ∀ (t u : Tuple), X.mulTupleR t = .ok u →
      (ms.reverse.foldr Matrix.mulU X).mulTupleR t = applyChain ms u := by
  induction ms with
  | nil =>
    intro X hX t u hu
    rw [applyChain]
    simp only [List.reverse_nil, List.foldr_nil, List.foldl_nil, hu]
  | cons A ms ih =>
    intro X hX t u hu
    have hA : Matrix.Sh 4 4 A := hms A (List.mem_cons_self A ms)
    have hXA : Matrix.Sh 4 4 (A.mulU X) := (mulU_spec hA hX).1
    have hms2 : ∀ B ∈ ms, Matrix.Sh 4 4 B := fun B hB => hms B (List.mem_cons_of_mem A hB)
    rw [List.reverse_cons, List.foldr_append, List.foldr_cons, List.foldr_nil]
    obtain ⟨v, hv⟩ : ∃ v, A.mulTupleR u = .ok v := by
      rw [mulTupleR_ok A u hA.2.1 hA.1]
      exact ⟨_, rfl⟩
    have hXAu : (A.mulU X).mulTupleR t = .ok v := by
      rw [mulTupleR_mulU hA hX t u hu, hv]
    rw [ih hms2 (A.mulU X) hXA t v hXAu]
    rw [applyChain, applyChain, List.foldl_cons]
    have hred : (match MulTupleRes.ok u with
        | MulTupleRes.ok u => A.mulTupleR u
        | r => r) = MulTupleRes.ok v := hv
    rw [hred]

/-- C9: starting from the identity, each TransformBuilder call left-multiplies
its factor matrix onto the accumulator, so build() returns
Mk * ... * M2 * M1 * identity (right-associated product of the factor
matrices in reverse call order applied to the identity), and consequently the
first call written is the first factor applied to a tuple. -/
theorem c9_builder (calls : List Call) :
    (∀ b c, (Call.applyTo b c).matrix = (Call.factor c).mulU b.matrix) ∧
    ((calls.foldl Call.applyTo (TransformBuilder.new 4)).build
      = (calls.map Call.factor).reverse.foldr Matrix.mulU (Matrix.identity 4)) ∧
    (∀ t : Tuple,
      ((calls.foldl Call.applyTo (TransformBuilder.new 4)).build).mulTupleR t
        = applyChain (calls.map Call.factor) t) := by
  refine ⟨applyTo_matrix, builder_foldl calls (Matrix.identity 4), ?_⟩
  intro t
  show ((calls.foldl Call.applyTo ⟨Matrix.identity 4⟩).build).mulTupleR t
    = applyChain (calls.map Call.factor) t
  rw [builder_foldl calls (Matrix.identity 4)]
  exact foldr_mulU_apply (calls.map Call.factor)
    (fun A hA => by
      obtain ⟨c, hc, he⟩ := List.mem_map.mp hA
      rw [← he]
      exact sh_factor c)
    (Matrix.identity 4) (sh_identity 4) t t (mulTupleR_identity t)

/-- C9: concrete witness, the builder theorem applied to a two-call sequence
(translate then scale), with both sides evaluated on a point: scaling is
applied after translation, so the point (1, 0, 0) goes to (2, 0, 0) and then
to (4, 0, 0). -/
theorem c9_witness :
    ((([Call.translate 1 0 0, Call.scale 2 2 2]).foldl Call.applyTo
        (TransformBuilder.new 4)).build).mulTupleR (Tuple.point 1 0 0)
      = .ok (Tuple.new 4 0 0 1) := by
  have h := (c9_builder [Call.translate 1 0 0, Call.scale 2 2 2]).2.2 (Tuple.point 1 0 0)
  rw [h]
  exact of_decide_eq_true (by with_unfolding_all rfl)

/-- Embedding of the Color struct of color.rs. -/
structure Color where
  red : F
  green : F
  blue : F
deriving DecidableEq, Repr

/-- Embedding of Color::black. -/
def Color.black : Color := ⟨0, 0, 0⟩

/-- Embedding of Add for Color: component-wise. -/
def Color.add (a b : Color) : Color :=
  ⟨a.red + b.red, a.green + b.green, a.blue + b.blue⟩

/-- Embedding of Mul of two Colors: component-wise (Hadamard) product. -/
def Color.mulC (a b : Color) : Color :=
  ⟨a.red * b.red, a.green * b.green, a.blue * b.blue⟩

/-- Embedding of Mul of a Color by an f32 scalar. -/
def Color.smul (a : Color) (k : F) : Color :=
  ⟨a.red * k, a.green * k, a.blue * k⟩

/-- Embedding of the PointLight struct of light.rs. -/
structure PointLight where
  intensity : Color
  position : Tuple
deriving DecidableEq, Repr

/-- Embedding of the Material struct of material.rs. -/
structure Material where
  color : Color
  ambient : F
  diffuse : F
  specular : F
  shininess : F
deriving DecidableEq, Repr

/-- Embedding of Material::new: white color, ambient 0.1, diffuse 0.9,
specular 0.9, shininess 200. -/
def Material.new : Material :=
  ⟨⟨1, 1, 1⟩, 1 / 10, 9 / 10, 9 / 10, 200⟩

/-- Modelled from the spec: the f32 powf used for the specular exponent.  The
embedding raises to the (floor of the) exponent, exact for the integer default
shininess 200; no claim depends on this term, which only occurs in the branch
the verified claim proves unreachable. -/
def powf (x y : F) : F := x ^ (Rat.floor y).toNat

/-- Embedding of Material::lighting (material.rs): ambient always contributes;
diffuse and specular contribute only when the normalized light direction makes
a non-negative dot product with the normal, and specular additionally requires
a positive reflection-eye dot product. -/
def Material.lighting (m : Material) (light : PointLight)
    (position eyev normalv : Tuple) : Color :=
  let effective_color := Color.mulC m.color light.intensity
  let lightv := (light.position.sub position).normalize
  let ambient := Color.smul effective_color m.ambient
  let light_dot_normal := lightv.dot normalv
  let ds : Color × Color :=
    if light_dot_normal ≥ 0 then
      let diffuse := Color.smul (Color.smul effective_color m.diffuse) light_dot_normal
      let reflectv := (lightv.reflect normalv).neg
      let reflect_dot_eye := eyev.dot reflectv
      if reflect_dot_eye > 0 then
        (diffuse,
          Color.smul (Color.smul light.intensity m.specular) (powf reflect_dot_eye m.shininess))
      else (diffuse, Color.black)
    else (Color.black, Color.black)
  Color.add (Color.add ambient ds.1) ds.2

/-- C8: when the dot product of the normalized light direction with the
normal is negative (surface faces away from the light), lighting returns
exactly the ambient term; diffuse and specular contribute black. -/
theorem c8_lighting_ambient (m : Material) (light : PointLight)
    (position eyev normalv : Tuple)
    (h : ((light.position.sub position).normalize).dot normalv < 0) :
    m.lighting light position eyev normalv
      = Color.smul (Color.mulC m.color light.intensity) m.ambient := by
  unfold Material.lighting
  simp only
  rw [if_neg (not_le.mpr h)]
  simp [Color.add, Color.black, Color.smul, Color.mulC]

/-- C8: concrete witness, the default material with a white light at
(0, 0, 10) behind the surface, surface at the origin, eye and normal both
(0, 0, -1): the result is exactly the ambient color (0.1, 0.1, 0.1). -/
theorem c8_witness :
    Material.new.lighting ⟨⟨1, 1, 1⟩, Tuple.point 0 0 10⟩ (Tuple.point 0 0 0)
        (Tuple.vector 0 0 (-1)) (Tuple.vector 0 0 (-1))
      = ⟨1 / 10, 1 / 10, 1 / 10⟩ := by
  have h := c8_lighting_ambient Material.new ⟨⟨1, 1, 1⟩, Tuple.point 0 0 10⟩
    (Tuple.point 0 0 0) (Tuple.vector 0 0 (-1)) (Tuple.vector 0 0 (-1))
    (of_decide_eq_true (by with_unfolding_all rfl))
  rw [h]
  exact of_decide_eq_true (by with_unfolding_all rfl)

/-- Embedding of the Ray struct of ray.rs. -/
structure Ray where
  origin : Tuple
  direction : Tuple
deriving DecidableEq, Repr

/-- Embedding of Ray::position: direction scaled by t plus the origin. -/
def Ray.position (r : Ray) (t : F) : Tuple :=
  (r.direction.smul t).add r.origin

/-- Embedding of Ray::transform: both fields mapped by the matrix; the two
unwrap calls of the source panic when a product is absent, modelled by none. -/
def Ray.transform (r : Ray) (m : Matrix) : Option Ray :=
  match m.mulTupleR r.origin, m.mulTupleR r.direction with
  | .ok o, .ok d => some ⟨o, d⟩
  | _, _ => none

/-- Embedding of the Sphere struct of sphere.rs. -/
structure Sphere where
  transform : Matrix
  material : Material
  id : ℤ
deriving DecidableEq, Repr

/-- Embedding of Sphere::new: identity transform, default material. -/
def Sphere.new (id : ℤ) : Sphere :=
  ⟨Matrix.identity 4, Material.new, id⟩

/-- Embedding of Sphere::set_transform. -/
def Sphere.set_transform (s : Sphere) (transform : Matrix) : Sphere :=
  { s with transform := transform }

/-- Embedding of Sphere::intersect: map the ray by the inverse of the sphere
transform (the source unwraps the inverse, modelled by the Option), solve the
unit-sphere quadratic and record the two roots in ascending order, both
referencing this sphere; a negative discriminant yields the empty collection. -/
def Sphere.intersect (s : Sphere) (r : Ray) : Option (Intersections Sphere) :=
  match s.transform.inverse with
  | none => none
  | some inv =>
    match r.transform inv with
    | none => none
    | some tr =>
      let sphere_to_ray := tr.origin.sub (Tuple.point 0 0 0)
      let a := tr.direction.dot tr.direction
      let b := 2 * tr.direction.dot sphere_to_ray
      let c := sphere_to_ray.dot sphere_to_ray - 1
      let discriminant := b * b - 4 * a * c
      if discriminant < 0 then some (Intersections.new_empty Sphere)
      else
        let x1 := (-b - Rat.sqrt discriminant) / (2 * a)
        let x2 := (-b + Rat.sqrt discriminant) / (2 * a)
        some (if x1 < x2 then
          ((Intersections.with_capacity Sphere 2).add_point ⟨s, x1⟩).add_point ⟨s, x2⟩
        else
          ((Intersections.with_capacity Sphere 2).add_point ⟨s, x2⟩).add_point ⟨s, x1⟩)

/-- An intersection with a parameter at most the other one never compares
Greater. -/
theorem cmp_ne_gt_of_le {T : Type} (a b : Intersection T) (h : a.point ≤ b.point) :
    a.cmp b ≠ .gt := by
  unfold Intersection.cmp
  by_cases he : is_equal a.point b.point = true
  · rw [if_pos he]
    simp
  · rw [if_neg he]
    have hlt : a.point < b.point := by
      rcases lt_or_eq_of_le h with h1 | h1
      · exact h1
      · exfalso
        apply he
        rw [is_equal, h1]
        simp
        norm_num [eps]
    rw [if_pos hlt]
    simp

/-- Adding two intersections in ascending parameter order to a fresh
collection records them in that order; when both parameters are positive the
hit is the first, and when both are non-positive there is no hit. -/
theorem add_two_spec {T : Type} (i1 i2 : Intersection T) :
    ((((Intersections.with_capacity T 2).add_point i1).add_point i2).merged_intersections
        = [i1, i2]) ∧
    (0 < i1.point → 0 < i2.point → i1.point ≤ i2.point →
      (((Intersections.with_capacity T 2).add_point i1).add_point i2).hit = some i1) ∧
    (i1.point ≤ 0 → i2.point ≤ 0 →
      (((Intersections.with_capacity T 2).add_point i1).add_point i2).hit = none) := by
  refine ⟨by simp [Intersections.with_capacity, Intersections.add_point], ?_, ?_⟩
  · intro h1 h2 hle
    unfold Intersections.hit Intersections.add_point Intersections.with_capacity
    simp only [if_pos h1, if_pos h2]
    have hp1 : heapPush ([] : List (Intersection T)) i1 = [i1] := rfl
    rw [hp1]
    have hp2 : heapPush [i1] i2 = [i1, i2] := by
      have hred : heapPush [i1] i2 =
          if i1.cmp i2 = .gt then siftUpFuel 1 (([i1, i2].set 0 i2).set 1 i1) 0
          else [i1, i2] := by with_unfolding_all rfl
      rw [hred, if_neg (cmp_ne_gt_of_le i1 i2 hle)]
    rw [hp2]
    rfl
  · intro h1 h2
    have h1' : ¬ i1.point > 0 := not_lt.mpr h1
    have h2' : ¬ i2.point > 0 := not_lt.mpr h2
    unfold Intersections.hit Intersections.add_point Intersections.with_capacity
    simp only [if_neg h1', if_neg h2']
    rfl

/-- C4: for a sphere whose transform has an inverse and a ray that the inverse
maps (both hypotheses hold whenever the transform is an invertible well-formed
4 x 4 matrix), intersect first maps the ray by the inverse and then solves the
quadratic with so = origin - (0,0,0), a = dir.dir, b = 2 dir.so, c = so.so - 1
and disc = b^2 - 4ac: a negative discriminant yields the empty collection, and
otherwise exactly the two roots (-b - sqrt disc) / (2a) and
(-b + sqrt disc) / (2a) are recorded in ascending order, each referencing this
sphere; when both roots are positive the hit is the smaller root, and when
both are non-positive there is no hit. -/
theorem c4_sphere_intersect (s : Sphere) (r : Ray) (inv : Matrix) (tr : Ray)
    (hinv : s.transform.inverse = some inv) (htr : r.transform inv = some tr)
    (a b c disc x1 x2 : F)
    (ha : a = tr.direction.dot tr.direction)
    (hb : b = 2 * tr.direction.dot (tr.origin.sub (Tuple.point 0 0 0)))
    (hc : c = (tr.origin.sub (Tuple.point 0 0 0)).dot (tr.origin.sub (Tuple.point 0 0 0)) - 1)
    (hdisc : disc = b * b - 4 * a * c)
    (hx1 : x1 = (-b - Rat.sqrt disc) / (2 * a))
    (hx2 : x2 = (-b + Rat.sqrt disc) / (2 * a)) :
    (disc < 0 → s.intersect r = some (Intersections.new_empty Sphere)) ∧
    (0 ≤ disc → ∃ xs, s.intersect r = some xs ∧
      xs.merged_intersections = [⟨s, min x1 x2⟩, ⟨s, max x1 x2⟩] ∧
      (0 < min x1 x2 → xs.hit = some ⟨s, min x1 x2⟩) ∧
      (max x1 x2 ≤ 0 → xs.hit = none)) := by
  unfold Sphere.intersect
  rw [hinv]
  dsimp only
  rw [htr]
  dsimp only
  rw [← ha, ← hb, ← hc, ← hdisc, ← hx1, ← hx2]
  constructor
  · intro h
    rw [if_pos h]
  · intro h
    rw [if_neg (not_lt.mpr h)]
    by_cases hx : x1 < x2
    · rw [if_pos hx]
      refine ⟨_, rfl, ?_, ?_, ?_⟩
      · rw [(add_two_spec (⟨s, x1⟩ : Intersection Sphere) ⟨s, x2⟩).1,
          min_eq_left (le_of_lt hx), max_eq_right (le_of_lt hx)]
      · intro hpos
        rw [min_eq_left (le_of_lt hx)] at hpos ⊢
        exact (add_two_spec (⟨s, x1⟩ : Intersection Sphere) ⟨s, x2⟩).2.1 hpos
          (lt_trans hpos hx) (le_of_lt hx)
      · intro hle
        rw [max_eq_right (le_of_lt hx)] at hle
        exact (add_two_spec (⟨s, x1⟩ : Intersection Sphere) ⟨s, x2⟩).2.2
          (le_trans (le_of_lt hx) hle) hle
    · rw [if_neg hx]
      have hge : x2 ≤ x1 := le_of_not_lt hx
      refine ⟨_, rfl, ?_, ?_, ?_⟩
      · rw [(add_two_spec (⟨s, x2⟩ : Intersection Sphere) ⟨s, x1⟩).1,
          min_eq_right hge, max_eq_left hge]
      · intro hpos
        rw [min_eq_right hge] at hpos ⊢
        exact (add_two_spec (⟨s, x2⟩ : Intersection Sphere) ⟨s, x1⟩).2.1 hpos
          (lt_of_lt_of_le hpos hge) hge
      · intro hle
        rw [max_eq_left hge] at hle
        exact (add_two_spec (⟨s, x2⟩ : Intersection Sphere) ⟨s, x1⟩).2.2
          (le_trans hge hle) hle

/-- The 4 x 4 identity is its own inverse. -/
theorem inv_id4 : (Matrix.identity 4).inverse = some (Matrix.identity 4) :=
  of_decide_eq_true (by with_unfolding_all rfl)

/-- The identity matrix maps the concrete ray of the sphere-intersection
example to itself. -/
theorem id4_ray_example :
    Ray.transform ⟨Tuple.point 0 0 (-5), Tuple.vector 0 0 1⟩ (Matrix.identity 4)
      = some ⟨Tuple.point 0 0 (-5), Tuple.vector 0 0 1⟩ :=
  of_decide_eq_true (by with_unfolding_all rfl)

/-- Witness for C4: the identity sphere and the ray from (0,0,-5) along
(0,0,1) intersect at t = 4 and t = 6, and the hit is t = 4. -/
theorem c4_witness :
    (((Sphere.new 1).intersect ⟨Tuple.point 0 0 (-5), Tuple.vector 0 0 1⟩).map
        Intersections.merged_intersections
      = some [⟨Sphere.new 1, 4⟩, ⟨Sphere.new 1, 6⟩]) ∧
    (((Sphere.new 1).intersect ⟨Tuple.point 0 0 (-5), Tuple.vector 0 0 1⟩).map
        Intersections.hit
      = some (some ⟨Sphere.new 1, 4⟩)) := by
  have h := (c4_sphere_intersect (Sphere.new 1)
      ⟨Tuple.point 0 0 (-5), Tuple.vector 0 0 1⟩ (Matrix.identity 4)
      ⟨Tuple.point 0 0 (-5), Tuple.vector 0 0 1⟩ inv_id4 id4_ray_example
      _ _ _ _ _ _ rfl rfl rfl rfl rfl rfl).2
      (of_decide_eq_true (by with_unfolding_all rfl))
  obtain ⟨xs, hxs, hm, hh, -⟩ := h
  rw [hxs]
  dsimp only [Option.map]
  constructor
  · rw [hm]
    exact of_decide_eq_true (by with_unfolding_all rfl)
  · rw [hh (of_decide_eq_true (by with_unfolding_all rfl))]
    exact of_decide_eq_true (by with_unfolding_all rfl)

end RT
